import Mathlib

/-!
# Verification of the `statesman` incremental-execution engine

Shallow embedding of the core of `statesman` (an incremental execution
engine for workflow steps) and proofs of the specification claims about it.

Embedded source files:
* `src/statesman/utils/config_utils.py`  — canonical config hashing
  (`sort_dict_recursive`, `hash_config_section`)
* `src/statesman/utils/file_utils.py`    — `get_file_mtime`, `is_file_non_empty`
* `src/statesman/models/state.py`        — `FileState` validation
* `src/statesman/core/base.py`           — `Statesman.__init__`,
  `load_previous_states`, `save_state`, `has_section_changed`,
  `needs_run`, `run`

Modelling conventions:
* A YAML configuration tree (`ConfigTree`) is an inductive of scalars,
  sequences and maps; map keys (`Key`) are strings, integers, booleans
  or floats.  Python floats are modelled as exact rationals (`Rat`);
  `round(x, 10)` is modelled as decimal rounding to 10 places with
  ties-to-even (Python's rounding mode).  On the concrete values used in
  the claims the rational and IEEE-754 verdicts coincide.
* The filesystem is a map from paths (lists of components) to file
  metadata (size, mtime as a natural number, and — for the state file —
  the mapping its contents parse to).  Directory existence is tracked
  separately.
* `hash_config_section` in the source serializes the canonical form with
  `ruamel.yaml` and takes its SHA-256 hex digest.  Serialization is
  injective on canonical forms and SHA-256 is a fixed deterministic
  function assumed collision-free, so digest equality is equivalent to
  canonical-form equality; the model therefore uses the canonical form
  itself as the digest.
-/

/-- A YAML map key: string, integer, boolean or float
(`None` keys are out of scope for the claims). -/
inductive Key where
  | str (s : String)
  | int (n : Int)
  | bool (b : Bool)
  | float (q : Rat)
deriving DecidableEq, Repr

/-- A parsed YAML configuration tree: scalars, sequences,
and maps given as insertion-ordered association lists
(Python `dict` entries in insertion order, keys pairwise distinct). -/
inductive ConfigTree where
  | str (s : String)
  | int (n : Int)
  | bool (b : Bool)
  | float (q : Rat)
  | null
  | list (items : List ConfigTree)
  | map (entries : List (Key × ConfigTree))
deriving Repr

mutual

/-- Boolean equality on `ConfigTree` (the derive handler does not
support this nested inductive, so equality is spelled out). -/
def ConfigTree.beq : ConfigTree → ConfigTree → Bool
  | .str a, .str b => a == b
  | .int a, .int b => a == b
  | .bool a, .bool b => a == b
  | .float a, .float b => a == b
  | .null, .null => true
  | .list xs, .list ys => ConfigTree.beqList xs ys
  | .map xs, .map ys => ConfigTree.beqEntries xs ys
  | _, _ => false
termination_by structural t => t

/-- Pointwise `ConfigTree.beq` on lists. -/
def ConfigTree.beqList : List ConfigTree → List ConfigTree → Bool
  | [], [] => true
  | x :: xs, y :: ys => ConfigTree.beq x y && ConfigTree.beqList xs ys
  | _, _ => false
termination_by structural t => t

/-- Pointwise `ConfigTree.beq` on map entries (keys compared with `==`). -/
def ConfigTree.beqEntries : List (Key × ConfigTree) → List (Key × ConfigTree) → Bool
  | [], [] => true
  | (k, v) :: xs, (l, w) :: ys =>
      k == l && ConfigTree.beq v w && ConfigTree.beqEntries xs ys
  | _, _ => false
termination_by structural t => t

end

mutual

theorem ConfigTree.beq_iff : ∀ a b : ConfigTree, ConfigTree.beq a b = true ↔ a = b
  | .str a, .str b => by simp [ConfigTree.beq]
  | .int a, .int b => by simp [ConfigTree.beq]
  | .bool a, .bool b => by simp [ConfigTree.beq]
  | .float a, .float b => by simp [ConfigTree.beq]
  | .null, .null => by simp [ConfigTree.beq]
  | .list xs, .list ys => by
      simpa [ConfigTree.beq] using ConfigTree.beqList_iff xs ys
  | .map xs, .map ys => by
      simpa [ConfigTree.beq] using ConfigTree.beqEntries_iff xs ys
  | .str _, .int _ | .str _, .bool _ | .str _, .float _ | .str _, .null
  | .str _, .list _ | .str _, .map _
  | .int _, .str _ | .int _, .bool _ | .int _, .float _ | .int _, .null
  | .int _, .list _ | .int _, .map _
  | .bool _, .str _ | .bool _, .int _ | .bool _, .float _ | .bool _, .null
  | .bool _, .list _ | .bool _, .map _
  | .float _, .str _ | .float _, .int _ | .float _, .bool _ | .float _, .null
  | .float _, .list _ | .float _, .map _
  | .null, .str _ | .null, .int _ | .null, .bool _ | .null, .float _
  | .null, .list _ | .null, .map _
  | .list _, .str _ | .list _, .int _ | .list _, .bool _ | .list _, .float _
  | .list _, .null | .list _, .map _
  | .map _, .str _ | .map _, .int _ | .map _, .bool _ | .map _, .float _
  | .map _, .null | .map _, .list _ => by simp [ConfigTree.beq]

theorem ConfigTree.beqList_iff :
    ∀ xs ys : List ConfigTree, ConfigTree.beqList xs ys = true ↔ xs = ys
  | [], [] => by simp [ConfigTree.beqList]
  | [], _ :: _ => by simp [ConfigTree.beqList]
  | _ :: _, [] => by simp [ConfigTree.beqList]
  | x :: xs, y :: ys => by
      simp [ConfigTree.beqList, ConfigTree.beq_iff x y, ConfigTree.beqList_iff xs ys]

theorem ConfigTree.beqEntries_iff :
    ∀ xs ys : List (Key × ConfigTree),
      ConfigTree.beqEntries xs ys = true ↔ xs = ys
  | [], [] => by simp [ConfigTree.beqEntries]
  | [], _ :: _ => by simp [ConfigTree.beqEntries]
  | (_, _) :: _, [] => by simp [ConfigTree.beqEntries]
  | (k, v) :: xs, (l, w) :: ys => by
      simp [ConfigTree.beqEntries, ConfigTree.beq_iff v w,
        ConfigTree.beqEntries_iff xs ys, Prod.ext_iff, and_assoc]

end

instance : DecidableEq ConfigTree :=
  fun a b => decidable_of_iff _ (ConfigTree.beq_iff a b)

/-- Does this key carry a float?  Models `isinstance(k, float)`
(Python `bool` is not an instance of `float`). -/
def Key.isFloat : Key → Bool
  | .float _ => true
  | _ => false

/-- Python `str()` applied to a map key.  `str()` of an `int` is its
decimal form, of a `bool` is `True`/`False`.  Float keys are rejected by
`sort_dict_recursive` before being stringified, so their string form is
never observed; a placeholder is used. -/
def Key.strForm : Key → String
  | .str s => s
  | .int n => toString n
  | .bool b => if b then "True" else "False"
  | .float _ => "<float>"

/-- Round the value `n / d` (with `d > 0`) to the nearest integer, ties
to even — the rounding mode of Python's builtin `round`.  `Int.fdiv` /
`Int.fmod` are floor division and its (nonnegative) remainder. -/
def pyRoundRatio (n : Int) (d : Nat) : Int :=
  let f := n.fdiv d
  let r := n.fmod d
  if 2 * r < d then f
  else if (d : Int) < 2 * r then f + 1
  else if f % 2 = 0 then f else f + 1

/-- `round(q, 10)` from `sort_dict_recursive`: round to 10 decimal
places, ties to even (floats modelled as exact rationals).  Written
with integer arithmetic (`q = q.num / q.den`, so
`q * 10^10 = (q.num * 10^10) / q.den`). -/
def round10 (q : Rat) : Rat :=
  Rat.divInt (pyRoundRatio (q.num * 10000000000) q.den) 10000000000

/-- The single error of the canonicalizer: the `ValueError("Float keys
are deprecated and not supported in config sections.")` raised by
`sort_dict_recursive` — the spec's `InvalidKeyError`. -/
inductive CanonError where
  | invalidKey
deriving DecidableEq, Repr

/-- Python-`dict` semantics for building `new_d` in
`sort_dict_recursive`: for each string key keep only the value of its
last occurrence (later assignments overwrite earlier ones).  The
position of the survivors is irrelevant because the result is sorted by
key immediately afterwards. -/
def dedupKeepLast : List (String × ConfigTree) → List (String × ConfigTree)
  | [] => []
  | (k, v) :: rest =>
      if rest.any (fun kv => kv.1 == k) then dedupKeepLast rest
      else (k, v) :: dedupKeepLast rest

/-- Lexicographic `≤` on character lists by code point — the order
Python uses to compare strings. -/
def charsLe : List Char → List Char → Bool
  | [], _ => true
  | _ :: _, [] => false
  | c :: cs, d :: ds =>
      if c.toNat < d.toNat then true
      else if d.toNat < c.toNat then false
      else charsLe cs ds

/-- Python string `≤` (code-point lexicographic). -/
def pyStrLe (a b : String) : Bool := charsLe a.data b.data

/-- Insert an entry into a key-sorted entry list. -/
def insertByKey (x : String × ConfigTree) :
    List (String × ConfigTree) → List (String × ConfigTree)
  | [] => [x]
  | y :: ys => if pyStrLe x.1 y.1 then x :: y :: ys else y :: insertByKey x ys

/-- `sorted(new_d.items())`: sort entries by string key (Python sorts
tuples lexicographically, but the keys of a `dict` are pairwise
distinct, so value comparison is never reached). -/
def sortByKey : List (String × ConfigTree) → List (String × ConfigTree)
  | [] => []
  | x :: xs => insertByKey x (sortByKey xs)

mutual
/-- `sort_dict_recursive` from `config_utils.py`: raise on float map
keys, stringify keys, canonicalize values recursively, sort entries by
key; canonicalize list items positionally; round float scalars to 10
decimal places; pass other scalars through.

The source applies itself a second time to the (already canonical)
values of the sorted dict; that second pass is the identity
(`sort_dict_recursive_idem` below), so the model applies one pass. -/
def sort_dict_recursive : ConfigTree → Except CanonError ConfigTree
  | .map entries =>
      if entries.any (fun kv => kv.1.isFloat) then .error .invalidKey
      else
        match sortEntries entries with
        | .error e => .error e
        | .ok news =>
            .ok (.map ((sortByKey (dedupKeepLast news)).map
              (fun kv => (Key.str kv.1, kv.2))))
  | .list items =>
      match sortItems items with
      | .error e => .error e
      | .ok items' => .ok (.list items')
  | .float q => .ok (.float (round10 q))
  | t => .ok t
termination_by structural t => t

/-- One pass of `for k, v in d.items(): new_d[str(k)] = sort_dict_recursive(v)`. -/
def sortEntries : List (Key × ConfigTree) → Except CanonError (List (String × ConfigTree))
  | [] => .ok []
  | (k, v) :: rest =>
      match sort_dict_recursive v with
      | .error e => .error e
      | .ok v' =>
          match sortEntries rest with
          | .error e => .error e
          | .ok rest' => .ok ((k.strForm, v') :: rest')
termination_by structural l => l

/-- Canonicalize each list item, preserving order. -/
def sortItems : List ConfigTree → Except CanonError (List ConfigTree)
  | [] => .ok []
  | t :: rest =>
      match sort_dict_recursive t with
      | .error e => .error e
      | .ok t' =>
          match sortItems rest with
          | .error e => .error e
          | .ok rest' => .ok (t' :: rest')
termination_by structural l => l
end

/-- A section digest.  The source computes
`sha256(yaml_dump(canonical_form)).hexdigest()`; YAML serialization is
injective on canonical forms and SHA-256 is deterministic and assumed
collision-free, so the canonical form itself stands for the digest
(digest equality ↔ canonical-form equality). -/
abbrev Digest := ConfigTree

/-- `hash_config_section` from `config_utils.py`: canonicalize and
digest a config section (see `Digest` for the digest model). -/
def hash_config_section (sec : ConfigTree) : Except CanonError Digest :=
  sort_dict_recursive sec

deriving instance DecidableEq for Except

-- Quick sanity checks of the canonicalizer on concrete inputs.
example :
    hash_config_section (.map [(.str "a", .map [(.str "b", .int 1), (.str "c", .int 2)])]) =
    hash_config_section (.map [(.str "a", .map [(.str "c", .int 2), (.str "b", .int 1)])]) := by
  decide

example : hash_config_section (.map [(.float 1, .str "x")]) = .error .invalidKey := by
  decide

example : round10 1 = 1 := by decide

example : round10 (Rat.divInt 10000000001 10000000000) ≠ 1 := by decide

example : round10 (Rat.divInt 100000000004 100000000000) = 1 := by decide

/-! ## Filesystem model and `file_utils.py` -/

/-- A filesystem path, as a list of components. -/
abbrev FsPath := List String

/-- Metadata of one file: its size in bytes, its modification time
(a natural number — only the ordering of mtimes is ever consulted), and,
so that the state file can be read back, the mapping its contents parse
to (`none` models a file whose YAML parse yields no mapping). -/
structure FileInfo where
  size : Nat
  mtime : Nat
  states : Option (List (String × Digest))
deriving DecidableEq

/-- The filesystem: files by path, plus which directories exist. -/
structure FS where
  files : FsPath → Option FileInfo
  dirs : FsPath → Bool

/-- `path.exists()`. -/
def fileExists (fs : FS) (p : FsPath) : Bool := (fs.files p).isSome

/-- `get_file_mtime` from `file_utils.py`:
`path.stat().st_mtime if path.exists() else 0.0`. -/
def get_file_mtime (fs : FS) (p : FsPath) : Nat :=
  match fs.files p with
  | some fi => fi.mtime
  | none => 0

/-- `is_file_non_empty` from `file_utils.py`:
`path.exists() and path.stat().st_size > 0`. -/
def is_file_non_empty (fs : FS) (p : FsPath) : Bool :=
  match fs.files p with
  | some fi => decide (0 < fi.size)
  | none => false

/-! ## `FileState` validation (`models/state.py`) -/

/-- The `check_newer_than` validator of `FileState`: with a reference
set, it raises unless the file's mtime is strictly greater than the
reference's (`get_file_mtime(path) <= get_file_mtime(v)` raises); a
missing reference has mtime 0 via `get_file_mtime` and is never an
error.  Returns `true` when the validator passes. -/
def check_newer_than (fs : FS) (p : FsPath) : Option FsPath → Bool
  | none => true
  | some v => decide (get_file_mtime fs v < get_file_mtime fs p)

/-- Does constructing `FileState(path, non_empty, newer_than)` succeed
(no `ValidationError`)?  The three field validators require: the path
exists; if `non_empty`, the file is non-empty; and `check_newer_than`. -/
def fileStateValid (fs : FS) (p : FsPath) (non_empty : Bool)
    (newer_than : Option FsPath) : Bool :=
  fileExists fs p &&
  (!non_empty || is_file_non_empty fs p) &&
  check_newer_than fs p newer_than

/-! ## The `Statesman` step (`core/base.py`) -/

/-- `ManagedFile`: a declared input file.  `newer_than` is the source's
`Union[str, Path, None]`: the literal string `"config"` selects the
configuration file's own path. -/
structure ManagedFile where
  name : String
  non_empty : Bool := true
  newer_than : Option String := none
deriving DecidableEq

/-- The step's static declarations (class attributes `input_files`,
`output_files`, `dependent_sections` of a `Statesman` subclass). -/
structure Descriptor where
  input_files : List ManagedFile
  output_files : List String
  dependent_sections : List String
deriving DecidableEq

/-- The mutable state of a `Statesman` instance: resolved config path
and working directory, the loaded configuration (a YAML mapping, held
as its entry list), and the in-memory `previous_states` mapping. -/
structure StepState where
  config_path : FsPath
  config : List (Key × ConfigTree)
  workdir : FsPath
  previous_states : List (String × Digest)
deriving DecidableEq

/-- First-match association lookup by YAML key (Python `dict` lookup —
keys of a loaded mapping are pairwise distinct). -/
def lookupKey : List (Key × ConfigTree) → Key → Option ConfigTree
  | [], _ => none
  | (k, v) :: rest, key => if k = key then some v else lookupKey rest key

/-- First-match association lookup by string key. -/
def lookupStr {α : Type} : List (String × α) → String → Option α
  | [], _ => none
  | (k, v) :: rest, key => if k = key then some v else lookupStr rest key

/-- Python `dict` assignment `m[k] = v`: replace in place if the key is
present, append otherwise. -/
def upsertStr {α : Type} : List (String × α) → String → α → List (String × α)
  | [], key, v => [(key, v)]
  | (k, w) :: rest, key, v =>
      if k = key then (key, v) :: rest else (k, w) :: upsertStr rest key v

/-- `self.config.get(section, {})`: a missing section is an empty map. -/
def config_get (config : List (Key × ConfigTree)) (sec : String) : ConfigTree :=
  (lookupKey config (.str sec)).getD (.map [])

/-- `self.workdir / name`. -/
def joinPath (dir : FsPath) (name : String) : FsPath := dir ++ [name]

/-- `self.state_file = self.workdir / ".statesman_state.yaml"`. -/
def state_file (st : StepState) : FsPath := st.workdir ++ [".statesman_state.yaml"]

/-- `has_section_changed`: hash the current value of the section
(propagating the float-key `ValueError`) and compare with the recorded
previous hash (`None` when absent, which never equals a digest). -/
def has_section_changed (st : StepState) (sec : String) : Except CanonError Bool :=
  match hash_config_section (config_get st.config sec) with
  | .error e => .error e
  | .ok current => .ok (decide (lookupStr st.previous_states sec ≠ some current))

/-- `save_state`: update the in-memory mapping and rewrite the whole
state file.  The model has no clock, so the rewritten state file keeps
its previous mtime (0 if absent); no claim consults the state file's
own timestamp.  Its dumped size is positive. -/
def save_state (st : StepState) (fs : FS) (sec : String) (h : Digest) :
    StepState × FS :=
  let st' := { st with previous_states := upsertStr st.previous_states sec h }
  let fi : FileInfo :=
    { size := 1, mtime := get_file_mtime fs (state_file st),
      states := some st'.previous_states }
  (st', { fs with files := fun p => if p = state_file st then some fi else fs.files p })

/-- Split a character list at a separator (the recursion of `pySplit`;
`acc` holds the current segment's characters in reverse). -/
def pySplitGo (sep : Char) : List Char → List Char → List String
  | [], acc => [String.mk acc.reverse]
  | x :: xs, acc =>
      if x = sep then String.mk acc.reverse :: pySplitGo sep xs []
      else pySplitGo sep xs (x :: acc)

/-- Python `s.split(sep)` for a one-character separator (`"a.b" ↦
["a", "b"]`, `"workdir" ↦ ["workdir"]`). -/
def pySplit (sep : Char) (s : String) : List String := pySplitGo sep s.data []

/-- Resolve a `ManagedFile`'s `newer_than` reference:
`self.config_path if mf.newer_than == "config" else mf.newer_than`.
A plain string is the referenced path (components split on `/`). -/
def resolveNewerThan (st : StepState) (mf : ManagedFile) : Option FsPath :=
  match mf.newer_than with
  | none => none
  | some s => if s = "config" then some st.config_path else some (pySplit '/' s)

/-- One declared input passes `FileState` validation
(no `ValidationError` caught in `needs_run`). -/
def inputValid (st : StepState) (fs : FS) (mf : ManagedFile) : Bool :=
  fileStateValid fs (joinPath st.workdir mf.name) mf.non_empty
    (resolveNewerThan st mf)

/-- The dependent-section loop of `needs_run`: first changed section
wins; a hashing error propagates. -/
def sectionsChanged (st : StepState) : List String → Except CanonError Bool
  | [] => .ok false
  | sec :: rest =>
      match has_section_changed st sec with
      | .error e => .error e
      | .ok true => .ok true
      | .ok false => sectionsChanged st rest

/-- `needs_run` from `core/base.py`, the four checks in source order,
each short-circuiting `true`: (1) some input fails `FileState`
validation; (2) some output is missing or empty; (3) some input is
newer than some output (all-to-all); (4) some dependent section's hash
differs from the recorded one (this step may raise on float keys). -/
def needs_run (d : Descriptor) (st : StepState) (fs : FS) : Except CanonError Bool :=
  if d.input_files.any (fun mf => ! inputValid st fs mf) then .ok true
  else if d.output_files.any
      (fun out => ! is_file_non_empty fs (joinPath st.workdir out)) then .ok true
  else if d.output_files.any (fun out => d.input_files.any (fun mf =>
      get_file_mtime fs (joinPath st.workdir out) <
        get_file_mtime fs (joinPath st.workdir mf.name))) then .ok true
  else sectionsChanged st d.dependent_sections

/-- The pre-execution snapshot
`{section: hash_config_section(self.config.get(section, {})) for section
in self.dependent_sections}` (a hashing error propagates). -/
def hashSections (st : StepState) : List String → Except CanonError (List (String × Digest))
  | [] => .ok []
  | sec :: rest =>
      match hash_config_section (config_get st.config sec) with
      | .error e => .error e
      | .ok h =>
          match hashSections st rest with
          | .error e => .error e
          | .ok t => .ok ((sec, h) :: t)

/-- The commit loop of `run`:
`for section in self.dependent_sections: self.save_state(section, current_hashes[section])`. -/
def saveAll (hashes : List (String × Digest)) (st : StepState) (fs : FS) :
    List String → StepState × FS
  | [] => (st, fs)
  | sec :: rest =>
      let h := (lookupStr hashes sec).getD (.map [])
      let c := save_state st fs sec h
      saveAll hashes c.1 c.2 rest

/-- The post-execution output validation of `run`: the first declared
output that does not exist or has zero size, if any (its path is the
`RuntimeError`'s subject). -/
def firstBadOutput (d : Descriptor) (st : StepState) (fs : FS) : Option FsPath :=
  (d.output_files.find?
      (fun out => ! is_file_non_empty fs (joinPath st.workdir out))).map
    (fun out => joinPath st.workdir out)

/-- The ways a `run()` call can raise: a `ValueError` from hashing a
section with float keys, the domain callback's own exception re-raised
unmodified (`ε` is the caller's exception type), or the `RuntimeError`
for an output that was not created properly. -/
inductive RunError (ε : Type) where
  | canonError (e : CanonError)
  | domainError (e : ε)
  | outputError (p : FsPath)
deriving DecidableEq

/-- Everything observable about one `run()` call: the exception it
raised (if any), the step state and filesystem when it returned or
raised, and whether the domain callback was invoked. -/
structure RunOutcome (ε : Type) where
  err : Option (RunError ε)
  st : StepState
  fs : FS
  executed : Bool

/-- `run` from `core/base.py`.  `force or self.needs_run()`
short-circuits, so `needs_run` is not evaluated when forced.  On a
positive decision: snapshot the section hashes, invoke the callback
(`execute`, the subclass's `_execute`, which may transform the
filesystem or raise), commit the snapshot section by section, then
validate outputs, raising on the first missing-or-empty one. -/
def run {ε : Type} (d : Descriptor) (st : StepState) (fs : FS)
    (execute : FS → Except ε FS) (force : Bool) : RunOutcome ε :=
  match (if force then Except.ok true else needs_run d st fs) with
  | .error e => ⟨some (.canonError e), st, fs, false⟩
  | .ok false => ⟨none, st, fs, false⟩
  | .ok true =>
      match hashSections st d.dependent_sections with
      | .error e => ⟨some (.canonError e), st, fs, false⟩
      | .ok hashes =>
          match execute fs with
          | .error e => ⟨some (.domainError e), st, fs, true⟩
          | .ok fs1 =>
              let c := saveAll hashes st fs1 d.dependent_sections
              match firstBadOutput d c.1 c.2 with
              | some p => ⟨some (.outputError p), c.1, c.2, true⟩
              | none => ⟨none, c.1, c.2, true⟩

/-! ## Construction (`Statesman.__init__`, `load_previous_states`) -/

/-- The recursion of `_get_config_value`: walk the dotted key path,
descending only through maps that contain the key; otherwise the
default. -/
def configValueGo (default : ConfigTree) : ConfigTree → List String → ConfigTree
  | v, [] => v
  | .map entries, k :: rest =>
      match lookupKey entries (.str k) with
      | some v => configValueGo default v rest
      | none => default
  | _, _ :: _ => default

/-- `_get_config_value(key, default)`: dotted-key lookup in the
configuration. -/
def get_config_value (config : List (Key × ConfigTree)) (key : String)
    (default : ConfigTree) : ConfigTree :=
  configValueGo default (.map config) (pySplit '.' key)

/-- The `workdir` value the constructor reads
(`self._get_config_value(self.workdir_key, ".")` with the default
`workdir_key = "workdir"`).  `none` when the configured value is not a
string (`Path(value)` would raise a `TypeError`; out of the model's
scope). -/
def workdir_str_of (config : List (Key × ConfigTree)) : Option String :=
  match get_config_value config "workdir" (.str ".") with
  | .str s => some s
  | _ => none

/-- `(self.config_path.parent / FsPath(workdir_str)).resolve()`, modelled
for relative workdir strings: drop the config file's final component
and append the workdir string's components (`.` components vanish under
`resolve()`; absolute workdirs and `..` are out of the model's scope). -/
def resolveWorkdir (config_path : FsPath) (s : String) : FsPath :=
  config_path.dropLast ++ (pySplit '/' s).filter (fun c => c ≠ ".")

/-- `load_previous_states`: the parsed state file, `{}` when the file
is absent or its parse yields nothing (`yaml.load(f) or {}`). -/
def load_previous_states (fs : FS) (sf : FsPath) : List (String × Digest) :=
  match fs.files sf with
  | some fi => fi.states.getD []
  | none => []

/-- `self.workdir.mkdir(parents=True, exist_ok=True)`: the directory
and every ancestor of it exist afterwards. -/
def mkdirParents (fs : FS) (dir : FsPath) : FS :=
  { fs with dirs := fun p => if p.isPrefixOf dir then true else fs.dirs p }

/-- `Statesman.__init__` after the config file has been parsed (parsing
is an external collaborator): resolve the working directory from the
configuration, create it (with parents) if it does not exist, and load
the persisted section-state mapping. -/
def statesman_init (fs : FS) (config_path : FsPath)
    (config : List (Key × ConfigTree)) : Option (StepState × FS) :=
  match workdir_str_of config with
  | none => none
  | some s =>
      let wd := resolveWorkdir config_path s
      let fs1 := if fs.dirs wd then fs else mkdirParents fs wd
      some ({ config_path := config_path, config := config, workdir := wd,
              previous_states := load_previous_states fs1 (wd ++ [".statesman_state.yaml"]) },
            fs1)

/-! ## Auxiliary notions used by the claims -/

mutual

/-- Two configuration trees differ only in the order of map entries (at
any nesting depth): scalars are equal, sequences correspond pointwise,
and the entries of a map correspond — after reordering values in place
(`PermEqEntries`, keys kept) — up to a permutation. -/
inductive PermEq : ConfigTree → ConfigTree → Prop where
  | str (s : String) : PermEq (.str s) (.str s)
  | int (n : Int) : PermEq (.int n) (.int n)
  | bool (b : Bool) : PermEq (.bool b) (.bool b)
  | float (q : Rat) : PermEq (.float q) (.float q)
  | null : PermEq .null .null
  | list {xs ys : List ConfigTree} :
      PermEqList xs ys → PermEq (.list xs) (.list ys)
  | map {xs zs ys : List (Key × ConfigTree)} :
      PermEqEntries xs zs → zs.Perm ys → PermEq (.map xs) (.map ys)

/-- Pointwise `PermEq` on sequences (order preserved). -/
inductive PermEqList : List ConfigTree → List ConfigTree → Prop where
  | nil : PermEqList [] []
  | cons {x y : ConfigTree} {xs ys : List ConfigTree} :
      PermEq x y → PermEqList xs ys → PermEqList (x :: xs) (y :: ys)

/-- Pointwise `PermEq` on map entries: keys equal and in place, values
related. -/
inductive PermEqEntries :
    List (Key × ConfigTree) → List (Key × ConfigTree) → Prop where
  | nil : PermEqEntries [] []
  | cons {k : Key} {v w : ConfigTree} {xs ys : List (Key × ConfigTree)} :
      PermEq v w → PermEqEntries xs ys →
      PermEqEntries ((k, v) :: xs) ((k, w) :: ys)

end

/-- The keys of one map level have pairwise-distinct string forms
(Python's `str(k)`). -/
def distinctKeys : List (Key × ConfigTree) → Bool
  | [] => true
  | (k, _) :: rest =>
      !(rest.any (fun kv => kv.1.strForm == k.strForm)) && distinctKeys rest

mutual

/-- Every map anywhere in the tree has keys with pairwise-distinct
string forms (so the `str(k)` conversion of `sort_dict_recursive`
collapses no entries). -/
def ConfigTree.canonKeysOk : ConfigTree → Bool
  | .map entries => distinctKeys entries && ConfigTree.entriesKeysOk entries
  | .list items => ConfigTree.itemsKeysOk items
  | _ => true
termination_by structural t => t

/-- `canonKeysOk` for every value of an entry list. -/
def ConfigTree.entriesKeysOk : List (Key × ConfigTree) → Bool
  | [] => true
  | (_, v) :: rest => ConfigTree.canonKeysOk v && ConfigTree.entriesKeysOk rest
termination_by structural l => l

/-- `canonKeysOk` for every member of an item list. -/
def ConfigTree.itemsKeysOk : List ConfigTree → Bool
  | [] => true
  | t :: rest => ConfigTree.canonKeysOk t && ConfigTree.itemsKeysOk rest
termination_by structural l => l

end

mutual

/-- Some map anywhere in the tree has a floating-point key. -/
def ConfigTree.hasFloatKey : ConfigTree → Bool
  | .map entries => ConfigTree.entriesHasFloatKey entries
  | .list items => ConfigTree.itemsHasFloatKey items
  | _ => false
termination_by structural t => t

/-- `hasFloatKey` over an entry list: a float key here, or one deeper
in a value. -/
def ConfigTree.entriesHasFloatKey : List (Key × ConfigTree) → Bool
  | [] => false
  | (k, v) :: rest =>
      k.isFloat || ConfigTree.hasFloatKey v || ConfigTree.entriesHasFloatKey rest
termination_by structural l => l

/-- `hasFloatKey` over an item list. -/
def ConfigTree.itemsHasFloatKey : List ConfigTree → Bool
  | [] => false
  | t :: rest => ConfigTree.hasFloatKey t || ConfigTree.itemsHasFloatKey rest
termination_by structural l => l

end

/-- The number of times the domain callback runs across `n` successive
`run(force=False)` calls starting from the given state (each call
continues from the state and filesystem the previous one left). -/
def runCount {ε : Type} (d : Descriptor) (execute : FS → Except ε FS) :
    Nat → StepState → FS → Nat
  | 0, _, _ => 0
  | n + 1, st, fs =>
      let o := run d st fs execute false
      (if o.executed then 1 else 0) + runCount d execute n o.st o.fs

/-! ## Concrete fixtures for counterexamples and witnesses -/

/-- An empty filesystem in which only the working directory `w` exists. -/
def fsOnlyWorkdir : FS :=
  { files := fun _ => none, dirs := fun p => decide (p = ["w"]) }

/-- A step with no inputs, one output `out`, one dependent section
`geom`. -/
def dGeom : Descriptor :=
  { input_files := [], output_files := ["out"], dependent_sections := ["geom"] }

/-- State for `dGeom`: config `geom: {x: 1}`, nothing recorded yet. -/
def stGeom : StepState :=
  { config_path := ["cfg.yaml"],
    config := [(.str "geom", .map [(.str "x", .int 1)])],
    workdir := ["w"], previous_states := [] }

/-- A callback that returns without touching the filesystem (so it
never creates the declared output). -/
def execNoop : FS → Except Unit FS := fun fs => .ok fs

/-- A declared input `in`, required non-empty, no newer-than
reference. -/
def mfIn : ManagedFile := { name := "in", non_empty := true, newer_than := none }

/-- A step declaring a required input `in` and one output `out`. -/
def dInOut : Descriptor :=
  { input_files := [mfIn], output_files := ["out"], dependent_sections := [] }

/-- State for `dInOut`: empty config, nothing recorded. -/
def stInOut : StepState :=
  { config_path := ["cfg.yaml"], config := [], workdir := ["w"],
    previous_states := [] }

/-- A callback that writes the output file `out` (size 1, mtime 1) and
nothing else. -/
def execMakeOut : FS → Except Unit FS := fun fs =>
  .ok { fs with files := fun p =>
          if p = ["w", "out"] then some { size := 1, mtime := 1, states := none }
          else fs.files p }

/-- A filesystem with a valid input `in` and a fresh output `out`
(input older than output). -/
def fsInOutGood : FS :=
  { files := fun p =>
      if p = ["w", "in"] then some { size := 1, mtime := 1, states := none }
      else if p = ["w", "out"] then some { size := 1, mtime := 2, states := none }
      else none,
    dirs := fun p => decide (p = ["w"]) }

/-- A callback that always raises (its exception is the payload `7`). -/
def execRaise : FS → Except Nat FS := fun _ => .error 7

/-- The canonicalization of a tree that is known to succeed (total
helper: on an erroring tree it returns the tree itself, a case the
lemmas about it exclude). -/
def canonD (t : ConfigTree) : ConfigTree :=
  match sort_dict_recursive t with
  | .ok r => r
  | .error _ => t

/-- The map `{a: {1: "x", "1": "y"}}` — the inner map's keys are the
*integer* `1` and the *string* `"1"`, distinct YAML keys with the same
`str()` form. -/
def tKeyClash : ConfigTree :=
  .map [(.str "a", .map [(.int 1, .str "x"), (.str "1", .str "y")])]

/-- The same map with the two inner entries transposed. -/
def tKeyClashSwapped : ConfigTree :=
  .map [(.str "a", .map [(.str "1", .str "y"), (.int 1, .str "x")])]

/-- The map `{a: {b: 1, c: 2}}`. -/
def tNested : ConfigTree :=
  .map [(.str "a", .map [(.str "b", .int 1), (.str "c", .int 2)])]

/-- The map `{a: {c: 2, b: 1}}` — inner entries reordered. -/
def tNestedSwapped : ConfigTree :=
  .map [(.str "a", .map [(.str "c", .int 2), (.str "b", .int 1)])]

/-! ## Supporting lemmas -/

/-- Every canonicalizer error is the float-key error. -/
theorem CanonError.eq_invalidKey : ∀ e : CanonError, e = .invalidKey
  | .invalidKey => rfl

/-- A list is a prefix of itself (`List.isPrefixOf`). -/
theorem isPrefixOfSelf (l : List String) : l.isPrefixOf l = true := by
  induction l with
  | nil => rfl
  | cons a as ih => simp [List.isPrefixOf, ih]

/-- An input that fails `FileState` validation makes `needs_run` return
`.ok true` (the input loop is first and raises nothing). -/
theorem needs_run_of_bad_input {d : Descriptor} {st : StepState} {fs : FS}
    {mf : ManagedFile} (hmem : mf ∈ d.input_files)
    (hbad : inputValid st fs mf = false) :
    needs_run d st fs = .ok true := by
  have hA : d.input_files.any (fun m => ! inputValid st fs m) = true :=
    List.any_eq_true.mpr ⟨mf, hmem, by simp [hbad]⟩
  simp [needs_run, hA]

/-- A missing-or-empty declared output makes `needs_run` return
`.ok true` (first or second check fires; neither can raise). -/
theorem needs_run_of_bad_output {d : Descriptor} {st : StepState} {fs : FS}
    {out : String} (hmem : out ∈ d.output_files)
    (hbad : is_file_non_empty fs (joinPath st.workdir out) = false) :
    needs_run d st fs = .ok true := by
  have hB : d.output_files.any
      (fun o => ! is_file_non_empty fs (joinPath st.workdir o)) = true :=
    List.any_eq_true.mpr ⟨out, hmem, by simp [hbad]⟩
  by_cases hA : d.input_files.any (fun m => ! inputValid st fs m) = true
  · simp [needs_run, hA]
  · simp [needs_run, hA, hB]

/-! ## Claims C6, C7, C10 -/

/-- **C6**: `needs_run()` returns true whenever any declared output
file is absent or has zero size, regardless of the state of the input
files, the configuration sections, or the persisted section hashes. -/
theorem claim_C6_needs_run_of_missing_output (d : Descriptor) (st : StepState)
    (fs : FS) (out : String) (hmem : out ∈ d.output_files)
    (hbad : fs.files (joinPath st.workdir out) = none ∨
      ∃ fi, fs.files (joinPath st.workdir out) = some fi ∧ fi.size = 0) :
    needs_run d st fs = .ok true := by
  apply needs_run_of_bad_output hmem
  rcases hbad with h | ⟨fi, h, hsz⟩
  · simp [is_file_non_empty, h]
  · simp [is_file_non_empty, h, hsz]

/-- Witness for C6 at a concrete step whose output `out` is absent
(while its dependent section also never ran — the output check alone
suffices). -/
theorem claim_C6_witness : needs_run dGeom stGeom fsOnlyWorkdir = .ok true :=
  claim_C6_needs_run_of_missing_output dGeom stGeom fsOnlyWorkdir "out"
    (by decide) (Or.inl rfl)

/-- **C7**: for a declared input with a newer-than reference, the
`check_newer_than` validator fails exactly when the input's mtime is
not strictly greater than the reference's; a missing reference path has
mtime 0 (and is never an error — the validator is total); a failing
newer-than check invalidates the input, and an invalid declared input
yields `needs_run = .ok true`. -/
theorem claim_C7_newer_than (fs : FS) (p ref : FsPath) (d : Descriptor)
    (st : StepState) (mf : ManagedFile) :
    (check_newer_than fs p (some ref) = false ↔
      get_file_mtime fs p ≤ get_file_mtime fs ref) ∧
    (fs.files ref = none → get_file_mtime fs ref = 0) ∧
    (check_newer_than fs (joinPath st.workdir mf.name) (resolveNewerThan st mf) = false →
      inputValid st fs mf = false) ∧
    (mf ∈ d.input_files → inputValid st fs mf = false →
      needs_run d st fs = .ok true) := by
  refine ⟨?_, ?_, ?_, fun hmem hbad => needs_run_of_bad_input hmem hbad⟩
  · simp [check_newer_than, Nat.not_lt]
  · intro h; simp [get_file_mtime, h]
  · intro h; simp [inputValid, fileStateValid, h]

/-- Witness for C7: concrete filesystem in which the input `in` is not
newer than the output used as reference. -/
theorem claim_C7_witness :
    (check_newer_than fsInOutGood ["w", "in"] (some ["w", "out"]) = false ↔
      get_file_mtime fsInOutGood ["w", "in"] ≤ get_file_mtime fsInOutGood ["w", "out"]) ∧
    (fsInOutGood.files ["w", "out"] = none →
      get_file_mtime fsInOutGood ["w", "out"] = 0) ∧
    (check_newer_than fsInOutGood (joinPath stInOut.workdir mfIn.name)
        (resolveNewerThan stInOut mfIn) = false →
      inputValid stInOut fsInOutGood mfIn = false) ∧
    (mfIn ∈ dInOut.input_files →
      inputValid stInOut fsInOutGood mfIn = false →
      needs_run dInOut stInOut fsInOutGood = .ok true) :=
  claim_C7_newer_than fsInOutGood ["w", "in"] ["w", "out"] dInOut stInOut mfIn

/-- **C10**: constructing a step has a filesystem side effect before any
`run()` call: if the working directory resolved from the configuration
does not exist, the constructor creates it including missing parents
(afterwards it exists in every case, and nothing is touched when it
already existed); and it reads the persisted state file, yielding an
empty mapping when the file is absent or parses to nothing. -/
theorem claim_C10_init (fs : FS) (cp : FsPath) (config : List (Key × ConfigTree))
    (s : String) (hs : workdir_str_of config = some s) :
    ∃ st fs', statesman_init fs cp config = some (st, fs') ∧
      st.workdir = resolveWorkdir cp s ∧
      st.config = config ∧ st.config_path = cp ∧
      fs'.dirs st.workdir = true ∧
      (fs.dirs (resolveWorkdir cp s) = false →
        ∀ p : FsPath, p.isPrefixOf st.workdir = true → fs'.dirs p = true) ∧
      (fs.dirs (resolveWorkdir cp s) = true → fs' = fs) ∧
      st.previous_states = load_previous_states fs' (state_file st) ∧
      (fs'.files (state_file st) = none → st.previous_states = []) ∧
      (∀ fi, fs'.files (state_file st) = some fi → fi.states = none →
        st.previous_states = []) := by
  have hinit : statesman_init fs cp config =
      some ({ config_path := cp, config := config,
              workdir := resolveWorkdir cp s,
              previous_states := load_previous_states
                (if fs.dirs (resolveWorkdir cp s) = true then fs
                 else mkdirParents fs (resolveWorkdir cp s))
                (resolveWorkdir cp s ++ [".statesman_state.yaml"]) },
            if fs.dirs (resolveWorkdir cp s) = true then fs
            else mkdirParents fs (resolveWorkdir cp s)) := by
    simp [statesman_init, hs]
  refine ⟨_, _, hinit, rfl, rfl, rfl, ?_, ?_, ?_, ?_, ?_, ?_⟩
  · by_cases h : fs.dirs (resolveWorkdir cp s) = true
    · simp [h]
    · simp only [Bool.not_eq_true] at h
      simp [h, mkdirParents, isPrefixOfSelf]
  · intro h p hp
    simp [h, mkdirParents]
    exact Or.inl (by simpa using hp)
  · intro h; simp [h]
  · simp [state_file]
  · intro h
    simp only [state_file] at h
    simp [load_previous_states, h]
  · intro fi h hst
    simp only [state_file] at h
    simp [load_previous_states, h, hst]

/-! ## State-commit lemmas -/

/-- `save_state` changes only `previous_states` on the step state. -/
theorem save_state_st (st : StepState) (fs : FS) (sec : String) (h : Digest) :
    (save_state st fs sec h).1 =
      { st with previous_states := upsertStr st.previous_states sec h } := rfl

/-- The commit loop never touches the configuration. -/
theorem saveAll_config : ∀ (dep : List String) (hashes : List (String × Digest))
    (st : StepState) (fs : FS), (saveAll hashes st fs dep).1.config = st.config
  | [], _, _, _ => rfl
  | _ :: rest, hashes, _st, _fs => saveAll_config rest hashes _ _

/-- The commit loop never touches the working directory. -/
theorem saveAll_workdir : ∀ (dep : List String) (hashes : List (String × Digest))
    (st : StepState) (fs : FS), (saveAll hashes st fs dep).1.workdir = st.workdir
  | [], _, _, _ => rfl
  | _ :: rest, hashes, _st, _fs => saveAll_workdir rest hashes _ _

/-- Upserting one key leaves the lookups of every other key unchanged. -/
theorem lookupStr_upsertStr_ne {α : Type} (l : List (String × α)) (k q : String)
    (v : α) (h : q ≠ k) : lookupStr (upsertStr l k v) q = lookupStr l q := by
  induction l with
  | nil => simp [upsertStr, lookupStr, Ne.symm h]
  | cons kv rest ih =>
      obtain ⟨k', w⟩ := kv
      by_cases hk : k' = k
      · subst hk
        simp [upsertStr, lookupStr, Ne.symm h]
      · simp [upsertStr, hk, lookupStr, ih]

/-- After upserting a key, looking it up yields the new value. -/
theorem lookupStr_upsertStr_self {α : Type} (l : List (String × α)) (k : String)
    (v : α) : lookupStr (upsertStr l k v) k = some v := by
  induction l with
  | nil => simp [upsertStr, lookupStr]
  | cons kv rest ih =>
      obtain ⟨k', w⟩ := kv
      by_cases hk : k' = k
      · subst hk; simp [upsertStr, lookupStr]
      · simp [upsertStr, hk, lookupStr, ih]

/-- The commit loop leaves the recorded hash of every section outside
the saved list unchanged. -/
theorem saveAll_frame : ∀ (dep : List String) (hashes : List (String × Digest))
    (st : StepState) (fs : FS) (s : String), s ∉ dep →
    lookupStr (saveAll hashes st fs dep).1.previous_states s =
      lookupStr st.previous_states s
  | [], _, _, _, _, _ => rfl
  | sec :: rest, hashes, st, fs, s, h => by
      have hs : s ∉ rest := fun hc => h (List.mem_cons_of_mem _ hc)
      have hne : s ≠ sec := fun hc => h (hc ▸ List.mem_cons_self _ _)
      rw [saveAll, saveAll_frame rest hashes _ _ s hs]
      exact lookupStr_upsertStr_ne _ _ _ _ hne

/-! ## Claims C9, C5 -/

/-- **C9**: any `run()` call (skip, commit or fail) changes the
recorded hash of no section outside the step's dependent-section set
and adds no key outside it (the lookup of any such name is exactly what
it was); and a missing configuration section is hashed as an empty
map (`config.get(section, {})`). -/
theorem claim_C9_section_frame {ε : Type} (d : Descriptor) (st : StepState)
    (fs : FS) (execute : FS → Except ε FS) (force : Bool) (s : String)
    (hs : s ∉ d.dependent_sections) :
    lookupStr (run d st fs execute force).st.previous_states s =
      lookupStr st.previous_states s ∧
    (lookupKey st.config (.str s) = none → config_get st.config s = .map []) := by
  constructor
  · rcases hdec : (if force then Except.ok true else needs_run d st fs) with e | b
    · simp [run, hdec]
    · cases b
      · simp [run, hdec]
      · rcases hhs : hashSections st d.dependent_sections with e | hashes
        · simp [run, hdec, hhs]
        · rcases hex : execute fs with e | fs1
          · simp [run, hdec, hhs, hex]
          · rcases hbo : firstBadOutput d
                (saveAll hashes st fs1 d.dependent_sections).1
                (saveAll hashes st fs1 d.dependent_sections).2 with _ | p
            · simp [run, hdec, hhs, hex, hbo,
                saveAll_frame d.dependent_sections hashes st fs1 s hs]
            · simp [run, hdec, hhs, hex, hbo,
                saveAll_frame d.dependent_sections hashes st fs1 s hs]
  · intro h; simp [config_get, h]

/-- Witness for C9: a concrete committing run updates nothing for a
section name outside the dependent set. -/
theorem claim_C9_witness :
    lookupStr (run dGeom stGeom fsOnlyWorkdir execNoop false).st.previous_states
        "other" = lookupStr stGeom.previous_states "other" ∧
    (lookupKey stGeom.config (.str "other") = none →
      config_get stGeom.config "other" = .map []) :=
  claim_C9_section_frame dGeom stGeom fsOnlyWorkdir execNoop false "other"
    (by decide)

/-- **C5**: if the domain callback raises, `run()` re-raises that very
error and neither the in-memory step state (in particular
`previous_states`) nor the filesystem (in particular the persisted
state file) is changed. -/
theorem claim_C5_callback_error {ε : Type} (d : Descriptor) (st : StepState)
    (fs : FS) (execute : FS → Except ε FS) (force : Bool) (e : ε)
    (hexec : execute fs = .error e)
    (hinvoked : (run d st fs execute force).executed = true) :
    (run d st fs execute force).err = some (.domainError e) ∧
    (run d st fs execute force).st = st ∧
    (run d st fs execute force).fs = fs := by
  rcases hdec : (if force then Except.ok true else needs_run d st fs) with e' | b
  · simp [run, hdec] at hinvoked
  · cases b
    · simp [run, hdec] at hinvoked
    · rcases hhs : hashSections st d.dependent_sections with e' | hashes
      · simp [run, hdec, hhs] at hinvoked
      · simp [run, hdec, hhs, hexec]

/-- Witness for C5: a callback raising `7` on a step that needs to run. -/
theorem claim_C5_witness :
    (run dGeom stGeom fsOnlyWorkdir execRaise false).err =
      some (.domainError 7) ∧
    (run dGeom stGeom fsOnlyWorkdir execRaise false).st = stGeom ∧
    (run dGeom stGeom fsOnlyWorkdir execRaise false).fs = fsOnlyWorkdir :=
  claim_C5_callback_error dGeom stGeom fsOnlyWorkdir execRaise false 7 rfl
    (by decide)

/-! ## Claim C1 -/

/-- A found bad output is a declared output, resolved under the
workdir, that is missing or empty. -/
theorem firstBadOutput_mem {d : Descriptor} {st : StepState} {fs : FS}
    {p : FsPath} (h : firstBadOutput d st fs = some p) :
    ∃ out ∈ d.output_files,
      is_file_non_empty fs (joinPath st.workdir out) = false ∧
      p = joinPath st.workdir out := by
  unfold firstBadOutput at h
  rcases ho : d.output_files.find?
      (fun out => ! is_file_non_empty fs (joinPath st.workdir out)) with _ | out
  · rw [ho] at h; simp at h
  · rw [ho] at h
    simp only [Option.map_some'] at h
    have hmem := List.mem_of_find?_eq_some ho
    have hpred := List.find?_some ho
    refine ⟨out, hmem, by simpa using hpred, by simpa using h.symm⟩

/-- **C1 counterexample**: a step with a dependent section whose
callback fails to create the declared output: `run()` raises the
output-contract violation, yet the section-hash mapping is *not* what
it was before the call — the hash for `geom` has been persisted. -/
theorem claim_C1_counterexample :
    (run dGeom stGeom fsOnlyWorkdir execNoop false).err =
      some (.outputError ["w", "out"]) ∧
    (run dGeom stGeom fsOnlyWorkdir execNoop false).st.previous_states ≠
      stGeom.previous_states ∧
    (run dGeom stGeom fsOnlyWorkdir execNoop false).fs.files
        (state_file stGeom) ≠ fsOnlyWorkdir.files (state_file stGeom) :=
  ⟨by decide, by decide, by decide⟩

/-- **C1 (amended)**: if a declared output is missing or empty after
the callback returns, `run()` raises an output-contract violation to
the caller; by that point the dependent sections' hashes have already
been saved (the persisted mapping is not necessarily what it was
before), but a subsequent `run()` still re-executes, because
`needs_run` on the resulting state is true via the failed output
check. -/
theorem claim_C1_amended {ε : Type} (d : Descriptor) (st : StepState) (fs : FS)
    (execute : FS → Except ε FS) (force : Bool) (p : FsPath)
    (h : (run d st fs execute force).err = some (.outputError p)) :
    (run d st fs execute force).executed = true ∧
    needs_run d (run d st fs execute force).st
      (run d st fs execute force).fs = .ok true := by
  rcases hdec : (if force then Except.ok true else needs_run d st fs) with e' | b
  · simp [run, hdec] at h
  · cases b
    · simp [run, hdec] at h
    · rcases hhs : hashSections st d.dependent_sections with e' | hashes
      · simp [run, hdec, hhs] at h
      · rcases hex : execute fs with e' | fs1
        · simp [run, hdec, hhs, hex] at h
        · rcases hbo : firstBadOutput d
              (saveAll hashes st fs1 d.dependent_sections).1
              (saveAll hashes st fs1 d.dependent_sections).2 with _ | p'
          · simp [run, hdec, hhs, hex, hbo] at h
          · have hpp : p' = p := by simpa [run, hdec, hhs, hex, hbo] using h
            subst hpp
            obtain ⟨out, hmem, hbad, hpe⟩ := firstBadOutput_mem hbo
            refine ⟨by simp [run, hdec, hhs, hex, hbo], ?_⟩
            simp only [run, hdec, hhs, hex, hbo]
            exact needs_run_of_bad_output hmem hbad

/-- Witness for the amended C1 at the concrete failing step. -/
theorem claim_C1_amended_witness :
    (run dGeom stGeom fsOnlyWorkdir execNoop false).executed = true ∧
    needs_run dGeom (run dGeom stGeom fsOnlyWorkdir execNoop false).st
      (run dGeom stGeom fsOnlyWorkdir execNoop false).fs = .ok true :=
  claim_C1_amended dGeom stGeom fsOnlyWorkdir execNoop false ["w", "out"]
    (by decide)

/-! ## Claim C4 (counterexample) -/

/-- **C4 counterexample**: a step whose declared input `in` never
exists.  The first unforced `run()` returns successfully (the callback
creates the output), nothing changes in between, yet across two
successive unforced calls the callback executes twice — `run()` without
`force` is not idempotent for steps whose inputs remain invalid. -/
theorem claim_C4_counterexample :
    (run dInOut stInOut fsOnlyWorkdir execMakeOut false).err = none ∧
    runCount dInOut execMakeOut 2 stInOut fsOnlyWorkdir = 2 :=
  ⟨by decide, by decide⟩

/-! ## Claim C4 (amended): commit lemmas and idempotence -/

/-- The pre-execution snapshot records, for every dependent section,
exactly the hash of the section's current configuration value. -/
theorem hashSections_lookup :
    ∀ (dep : List String) (st : StepState) (hashes : List (String × Digest)),
      hashSections st dep = .ok hashes → ∀ sec ∈ dep,
      ∃ h, hash_config_section (config_get st.config sec) = .ok h ∧
        lookupStr hashes sec = some h
  | [], _, _, _, _, hmem => absurd hmem (List.not_mem_nil _)
  | s0 :: rest, st, hashes, hok, sec, hmem => by
      unfold hashSections at hok
      rcases h0 : hash_config_section (config_get st.config s0) with e | h
      · rw [h0] at hok; exact absurd hok (by simp)
      · rw [h0] at hok
        rcases hr : hashSections st rest with e | t
        · rw [hr] at hok; exact absurd hok (by simp)
        · rw [hr] at hok
          simp only [Except.ok.injEq] at hok
          subst hok
          rcases List.mem_cons.mp hmem with heq | hmem'
          · subst heq
            exact ⟨h, h0, by simp [lookupStr]⟩
          · by_cases hcase : s0 = sec
            · subst hcase
              exact ⟨h, h0, by simp [lookupStr]⟩
            · obtain ⟨h', hh', hl'⟩ := hashSections_lookup rest st t hr sec hmem'
              exact ⟨h', hh', by simp [lookupStr, hcase, hl']⟩

/-- After the commit loop, every saved section's recorded hash is the
snapshot value. -/
theorem saveAll_lookup_mem :
    ∀ (dep : List String) (hashes : List (String × Digest)) (st : StepState)
      (fs : FS) (sec : String), sec ∈ dep →
      lookupStr (saveAll hashes st fs dep).1.previous_states sec =
        some ((lookupStr hashes sec).getD (.map []))
  | [], _, _, _, _, hmem => absurd hmem (List.not_mem_nil _)
  | s0 :: rest, hashes, st, fs, sec, hmem => by
      rw [saveAll]
      by_cases hr : sec ∈ rest
      · exact saveAll_lookup_mem rest hashes _ _ sec hr
      · have hse : sec = s0 := by
          rcases List.mem_cons.mp hmem with h | h
          · exact h
          · exact absurd h hr
        subst hse
        rw [saveAll_frame rest hashes _ _ sec hr]
        exact lookupStr_upsertStr_self _ _ _

/-- If no dependent section has changed, the section loop reports
no change. -/
theorem sectionsChanged_ok_false :
    ∀ (dep : List String) (st : StepState),
      (∀ sec ∈ dep, has_section_changed st sec = .ok false) →
      sectionsChanged st dep = .ok false
  | [], _, _ => rfl
  | s0 :: rest, st, h => by
      rw [sectionsChanged, h s0 (List.mem_cons_self _ _),
        sectionsChanged_ok_false rest st
          (fun sec hmem => h sec (List.mem_cons_of_mem _ hmem))]

/-- `needs_run` reports `.ok false` when all four checks pass. -/
theorem needs_run_ok_false {d : Descriptor} {st : StepState} {fs : FS}
    (hin : ∀ mf ∈ d.input_files, inputValid st fs mf = true)
    (hout : ∀ out ∈ d.output_files,
      is_file_non_empty fs (joinPath st.workdir out) = true)
    (hcross : ∀ out ∈ d.output_files, ∀ mf ∈ d.input_files,
      get_file_mtime fs (joinPath st.workdir mf.name) ≤
        get_file_mtime fs (joinPath st.workdir out))
    (hsec : sectionsChanged st d.dependent_sections = .ok false) :
    needs_run d st fs = .ok false := by
  have hA : d.input_files.any (fun m => ! inputValid st fs m) = false := by
    cases hA : d.input_files.any (fun m => ! inputValid st fs m) with
    | false => rfl
    | true =>
        obtain ⟨mf, hm, hv⟩ := List.any_eq_true.mp hA
        simp [hin mf hm] at hv
  have hB : d.output_files.any
      (fun o => ! is_file_non_empty fs (joinPath st.workdir o)) = false := by
    cases hB : d.output_files.any
        (fun o => ! is_file_non_empty fs (joinPath st.workdir o)) with
    | false => rfl
    | true =>
        obtain ⟨o, hm, hv⟩ := List.any_eq_true.mp hB
        simp [hout o hm] at hv
  have hC : d.output_files.any (fun out => d.input_files.any (fun mf =>
      get_file_mtime fs (joinPath st.workdir out) <
        get_file_mtime fs (joinPath st.workdir mf.name))) = false := by
    cases hC : d.output_files.any (fun out => d.input_files.any (fun mf =>
        get_file_mtime fs (joinPath st.workdir out) <
          get_file_mtime fs (joinPath st.workdir mf.name))) with
    | false => rfl
    | true =>
        obtain ⟨o, hmo, hv⟩ := List.any_eq_true.mp hC
        obtain ⟨mf, hmi, hv'⟩ := List.any_eq_true.mp hv
        exact absurd (Nat.lt_of_lt_of_le (by simpa using hv') (hcross o hmo mf hmi))
          (Nat.lt_irrefl _)
  simp [needs_run, hA, hB, hC, hsec]

/-- After a committing run, no dependent section reads as changed: the
recorded hash is the pre-execution snapshot of the same (unchanged)
configuration. -/
theorem has_section_changed_after_commit (dep : List String) (st : StepState)
    (fs1 : FS) (hashes : List (String × Digest))
    (hhs : hashSections st dep = .ok hashes) (sec : String) (hmem : sec ∈ dep) :
    has_section_changed (saveAll hashes st fs1 dep).1 sec = .ok false := by
  obtain ⟨h, hh, hl⟩ := hashSections_lookup dep st hashes hhs sec hmem
  unfold has_section_changed
  rw [show config_get (saveAll hashes st fs1 dep).1.config sec =
      config_get st.config sec from by rw [saveAll_config]]
  rw [hh]
  simp [saveAll_lookup_mem dep hashes st fs1 sec hmem, hl]

/-- Once `needs_run` is `.ok false`, every further unforced `run` is a
no-op: the callback never executes again. -/
theorem runCount_zero_of_not_needed {ε : Type} (d : Descriptor)
    (execute : FS → Except ε FS) (st : StepState) (fs : FS)
    (h : needs_run d st fs = .ok false) :
    ∀ n, runCount d execute n st fs = 0
  | 0 => rfl
  | n + 1 => by
      have hrun : run d st fs execute false = ⟨none, st, fs, false⟩ := by
        simp [run, h]
      simp [runCount, hrun,
        runCount_zero_of_not_needed d execute st fs h n]

/-- **C4 (amended)**: `run()` without `force` is idempotent *provided
the first call leaves the step clean*: if an unforced `run()` returns
without error and, in the state it leaves behind, every declared input
passes validation, every declared output exists non-empty, and no input
is newer than any output, then the domain callback executes in none of
the following unforced calls (so at most once across the sequence).
Without the input-side conditions this fails — see the
counterexample. -/
theorem claim_C4_amended {ε : Type} (d : Descriptor) (st : StepState) (fs : FS)
    (execute : FS → Except ε FS)
    (o1err : (run d st fs execute false).err = none)
    (hin : ∀ mf ∈ d.input_files,
      inputValid (run d st fs execute false).st
        (run d st fs execute false).fs mf = true)
    (hout : ∀ out ∈ d.output_files,
      is_file_non_empty (run d st fs execute false).fs
        (joinPath (run d st fs execute false).st.workdir out) = true)
    (hcross : ∀ out ∈ d.output_files, ∀ mf ∈ d.input_files,
      get_file_mtime (run d st fs execute false).fs
          (joinPath (run d st fs execute false).st.workdir mf.name) ≤
        get_file_mtime (run d st fs execute false).fs
          (joinPath (run d st fs execute false).st.workdir out)) :
    ∀ n, runCount d execute n (run d st fs execute false).st
      (run d st fs execute false).fs = 0 := by
  have hneeds : needs_run d (run d st fs execute false).st
      (run d st fs execute false).fs = .ok false := by
    rcases hdec : needs_run d st fs with e | b
    · simp [run, hdec] at o1err
    · cases b
      · simp only [run, hdec]
        exact hdec
      · rcases hhs : hashSections st d.dependent_sections with e | hashes
        · simp [run, hdec, hhs] at o1err
        · rcases hex : execute fs with e | fs1
          · simp [run, hdec, hhs, hex] at o1err
          · rcases hbo : firstBadOutput d
                (saveAll hashes st fs1 d.dependent_sections).1
                (saveAll hashes st fs1 d.dependent_sections).2 with _ | p
            · simp only [run, hdec, hhs, hex, hbo] at hin hout hcross ⊢
              exact needs_run_ok_false hin hout hcross
                (sectionsChanged_ok_false _ _
                  (fun sec hmem => has_section_changed_after_commit
                    d.dependent_sections st fs1 hashes hhs sec hmem))
            · simp [run, hdec, hhs, hex, hbo] at o1err
  exact runCount_zero_of_not_needed d execute _ _ hneeds

/-- Witness for the amended C4: the `dGeom` step with a callback that
does create its output runs once and then never again (three further
calls execute nothing). -/
theorem claim_C4_amended_witness :
    runCount dGeom execMakeOut 3 (run dGeom stGeom fsOnlyWorkdir execMakeOut false).st
      (run dGeom stGeom fsOnlyWorkdir execMakeOut false).fs = 0 :=
  claim_C4_amended dGeom stGeom fsOnlyWorkdir execMakeOut (by decide)
    (by decide) (by decide) (by decide) 3

/-- Witness for C10: constructing a step over a filesystem in which the
configured working directory `w` already exists as the only directory. -/
theorem claim_C10_witness :
    ∃ st fs', statesman_init fsOnlyWorkdir ["cfg.yaml"]
        [(.str "workdir", .str "w")] = some (st, fs') ∧
      st.workdir = resolveWorkdir ["cfg.yaml"] "w" ∧
      st.config = [(.str "workdir", .str "w")] ∧ st.config_path = ["cfg.yaml"] ∧
      fs'.dirs st.workdir = true ∧
      (fsOnlyWorkdir.dirs (resolveWorkdir ["cfg.yaml"] "w") = false →
        ∀ p : FsPath, p.isPrefixOf st.workdir = true → fs'.dirs p = true) ∧
      (fsOnlyWorkdir.dirs (resolveWorkdir ["cfg.yaml"] "w") = true →
        fs' = fsOnlyWorkdir) ∧
      st.previous_states = load_previous_states fs' (state_file st) ∧
      (fs'.files (state_file st) = none → st.previous_states = []) ∧
      (∀ fi, fs'.files (state_file st) = some fi → fi.states = none →
        st.previous_states = []) :=
  claim_C10_init fsOnlyWorkdir ["cfg.yaml"] [(.str "workdir", .str "w")] "w"
    (by decide)

/-! ## Claim C8: float map keys -/

mutual

/-- A tree containing a float map key (at any depth) fails to
canonicalize, always with the float-key error. -/
theorem sort_dict_recursive_float_key :
    ∀ t : ConfigTree, t.hasFloatKey = true →
      sort_dict_recursive t = .error .invalidKey
  | .map entries, h => by
      by_cases hk : entries.any (fun kv => kv.1.isFloat) = true
      · simp [sort_dict_recursive, hk]
      · have h' : ConfigTree.entriesHasFloatKey entries = true := by
          simpa [ConfigTree.hasFloatKey] using h
        have hrec := sortEntries_float_key entries h' (by simpa using hk)
        simp [sort_dict_recursive, hk, hrec]
  | .list items, h => by
      have h' : ConfigTree.itemsHasFloatKey items = true := by
        simpa [ConfigTree.hasFloatKey] using h
      have hrec := sortItems_float_key items h'
      simp [sort_dict_recursive, hrec]
  | .str _, h => by simp [ConfigTree.hasFloatKey] at h
  | .int _, h => by simp [ConfigTree.hasFloatKey] at h
  | .bool _, h => by simp [ConfigTree.hasFloatKey] at h
  | .float _, h => by simp [ConfigTree.hasFloatKey] at h
  | .null, h => by simp [ConfigTree.hasFloatKey] at h
termination_by structural t => t

/-- If an entry list has a float key strictly below the current level
(none at this level), the value pass fails with the float-key error. -/
theorem sortEntries_float_key :
    ∀ l : List (Key × ConfigTree), ConfigTree.entriesHasFloatKey l = true →
      l.any (fun kv => kv.1.isFloat) = false →
      sortEntries l = .error .invalidKey
  | [], h, _ => by simp [ConfigTree.entriesHasFloatKey] at h
  | (k, v) :: rest, h, hk => by
      rw [List.any_cons, Bool.or_eq_false_iff] at hk
      obtain ⟨hkf, hkrest⟩ := hk
      rw [ConfigTree.entriesHasFloatKey, hkf] at h
      simp only [Bool.false_or, Bool.or_eq_true] at h
      rcases h with hv | hrest
      · have := sort_dict_recursive_float_key v hv
        simp [sortEntries, this]
      · rcases hcv : sort_dict_recursive v with e | v'
        · simp [sortEntries, hcv, CanonError.eq_invalidKey e]
        · have := sortEntries_float_key rest hrest hkrest
          simp [sortEntries, hcv, this]
termination_by structural l => l

/-- If an item list has a float key somewhere below it, canonicalizing
the items fails with the float-key error. -/
theorem sortItems_float_key :
    ∀ l : List ConfigTree, ConfigTree.itemsHasFloatKey l = true →
      sortItems l = .error .invalidKey
  | [], h => by simp [ConfigTree.itemsHasFloatKey] at h
  | t :: rest, h => by
      rw [ConfigTree.itemsHasFloatKey, Bool.or_eq_true] at h
      rcases h with ht | hrest
      · have := sort_dict_recursive_float_key t ht
        simp [sortItems, this]
      · rcases hct : sort_dict_recursive t with e | t'
        · simp [sortItems, hct, CanonError.eq_invalidKey e]
        · have := sortItems_float_key rest hrest
          simp [sortItems, hct, this]
termination_by structural l => l

end

/-- **C8**: canonicalizing — and hence hashing — any tree that contains
a floating-point map key, at any nesting depth, fails with the
float-key `ValueError` (the spec's `InvalidKeyError`); it never returns
a digest, so there is no silent fallback to an unstable hash. -/
theorem claim_C8_float_key (t : ConfigTree) (h : t.hasFloatKey = true) :
    hash_config_section t = .error .invalidKey :=
  sort_dict_recursive_float_key t h

/-- Witness for C8 at a float key two levels deep. -/
theorem claim_C8_witness :
    hash_config_section
      (.map [(.str "a", .map [(.float 1, .str "x")])]) = .error .invalidKey :=
  claim_C8_float_key (.map [(.str "a", .map [(.float 1, .str "x")])]) (by decide)

/-! ## Claim C2: float rounding and hashing -/

/-- The rounding step of `round(·, 10)` is off by at most half a unit:
`2 * |pyRoundRatio n d * d - n| ≤ d`. -/
theorem pyRoundRatio_close (n : Int) (d : Nat) (hd : 0 < d) :
    2 * |pyRoundRatio n d * d - n| ≤ d := by
  have hdz : (0 : Int) < (d : Int) := by exact_mod_cast hd
  have hid : (d : Int) * n.fdiv d + n.fmod d = n := Int.fdiv_add_fmod n d
  have hr0 : 0 ≤ n.fmod d := by
    rw [Int.fmod_eq_emod n (le_of_lt hdz)]
    exact Int.emod_nonneg n (by omega)
  have hrd : n.fmod d < d := Int.fmod_lt_of_pos n hdz
  simp only [pyRoundRatio]
  split_ifs with h1 h2 h3
  · have he : n.fdiv d * (d : Int) - n = -(n.fmod d) := by
      linear_combination hid
    rw [he, abs_neg, abs_of_nonneg hr0]
    omega
  · have he : (n.fdiv d + 1) * (d : Int) - n = (d : Int) - n.fmod d := by
      linear_combination hid
    rw [he, abs_of_nonneg (by omega)]
    omega
  · have he : n.fdiv d * (d : Int) - n = -(n.fmod d) := by
      linear_combination hid
    rw [he, abs_neg, abs_of_nonneg hr0]
    omega
  · have he : (n.fdiv d + 1) * (d : Int) - n = (d : Int) - n.fmod d := by
      linear_combination hid
    rw [he, abs_of_nonneg (by omega)]
    omega

/-- Rounding to 10 decimal places moves a value by at most
`0.5 × 10⁻¹⁰`. -/
theorem round10_close (q : ℚ) : |round10 q - q| ≤ 1 / 20000000000 := by
  have hd : 0 < q.den := q.pos
  have key := pyRoundRatio_close (q.num * 10000000000) q.den hd
  set m := pyRoundRatio (q.num * 10000000000) q.den with hm
  have hB : (0 : ℚ) < (q.den : ℚ) := by exact_mod_cast hd
  have h1 : round10 q = (m : ℚ) / 10000000000 := by
    rw [round10, ← hm, Rat.divInt_eq_div]
    norm_num
  have h2 : q = (q.num : ℚ) / (q.den : ℚ) := (Rat.num_div_den q).symm
  have keyq : 2 * |(m : ℚ) * (q.den : ℚ) - (q.num : ℚ) * 10000000000| ≤
      (q.den : ℚ) := by exact_mod_cast key
  rw [h1]
  conv_lhs => rw [h2]
  rw [div_sub_div _ _ (by norm_num : (10000000000 : ℚ) ≠ 0) (ne_of_gt hB),
    abs_div,
    abs_of_pos (show (0 : ℚ) < 10000000000 * (q.den : ℚ) by positivity)]
  rw [div_le_div_iff₀ (by positivity) (by norm_num)]
  have habs : |(m : ℚ) * (q.den : ℚ) - 10000000000 * (q.num : ℚ)| =
      |(m : ℚ) * (q.den : ℚ) - (q.num : ℚ) * 10000000000| := by
    congr 1
    ring
  rw [habs]
  have hmul := mul_le_mul_of_nonneg_right keyq
    (by norm_num : (0 : ℚ) ≤ 10000000000)
  linarith [hmul]

/-- Values at distance at least `10⁻³` round to different values. -/
theorem round10_ne_of_far {q1 q2 : ℚ} (h : 1 / 1000 ≤ |q1 - q2|) :
    round10 q1 ≠ round10 q2 := by
  intro heq
  have h1 := round10_close q1
  have h2 := round10_close q2
  have hsum : q1 - q2 = (round10 q2 - q2) + (-(round10 q1 - q1)) := by
    rw [heq]; ring
  have h3 : |q1 - q2| ≤ |round10 q2 - q2| + |round10 q1 - q1| := by
    rw [hsum]
    calc |(round10 q2 - q2) + (-(round10 q1 - q1))| ≤
        |round10 q2 - q2| + |-(round10 q1 - q1)| := abs_add _ _
      _ = |round10 q2 - q2| + |round10 q1 - q1| := by rw [abs_neg]
  linarith

/-- Canonicalizing `{k: q}` for a float `q` rounds the value to 10
decimal places. -/
theorem hash_singleton_float (k : String) (q : ℚ) :
    hash_config_section (.map [(.str k, .float q)]) =
      .ok (.map [(.str k, .float (round10 q))]) := by
  simp [hash_config_section, sort_dict_recursive, sortEntries, sortByKey,
    insertByKey, dedupKeepLast, Key.isFloat, Key.strForm]

/-- **C2 counterexample**: `hash({x: 1.0})` and
`hash({x: 1.0000000001})` — two float values differing by exactly
`1e-10` — produce *different* digests: `round(·, 10)` keeps the 10th
decimal place, so it does not identify them. -/
theorem claim_C2_counterexample :
    hash_config_section (.map [(.str "x", .float 1)]) ≠
      hash_config_section
        (.map [(.str "x", .float (Rat.divInt 10000000001 10000000000))]) := by
  decide

/-- **C2 (amended)**: the canonical hash rounds float scalars to 10
decimal places: two values with the same rounding (in particular any
two that differ by less than `0.5e-10` without straddling a rounding
boundary, such as `1.0` and `1.00000000004`) hash identically, while
values differing by at least `1e-3` always hash differently.  Values
differing by exactly `1e-10` — e.g. `1.0` vs `1.0000000001` — hash
differently (see the counterexample). -/
theorem claim_C2_amended (k : String) (q1 q2 : ℚ) :
    (round10 q1 = round10 q2 →
      hash_config_section (.map [(.str k, .float q1)]) =
        hash_config_section (.map [(.str k, .float q2)])) ∧
    (1 / 1000 ≤ |q1 - q2| →
      hash_config_section (.map [(.str k, .float q1)]) ≠
        hash_config_section (.map [(.str k, .float q2)])) := by
  constructor
  · intro h
    rw [hash_singleton_float, hash_singleton_float, h]
  · intro h heq
    rw [hash_singleton_float, hash_singleton_float] at heq
    have hr : round10 q1 = round10 q2 := by
      simpa using heq
    exact round10_ne_of_far h hr

/-- Witness for the amended C2: `1.0` and `1.00000000004` hash
identically; `1.0` and `0.998` hash differently. -/
theorem claim_C2_amended_witness :
    hash_config_section (.map [(.str "x", .float 1)]) =
      hash_config_section
        (.map [(.str "x", .float (Rat.divInt 100000000004 100000000000))]) ∧
    hash_config_section (.map [(.str "x", .float 1)]) ≠
      hash_config_section (.map [(.str "x", .float (Rat.divInt 998 1000))]) :=
  ⟨(claim_C2_amended "x" 1 (Rat.divInt 100000000004 100000000000)).1 (by decide),
   (claim_C2_amended "x" 1 (Rat.divInt 998 1000)).2 (by
      rw [Rat.divInt_eq_div]
      rw [show (1 : ℚ) - (998 : ℤ) / (1000 : ℤ) = 1 / 500 by norm_num]
      rw [abs_of_pos (by norm_num)]
      norm_num)⟩

/-! ## Claim C3: order lemmas for the canonical key sort -/

/-- `charsLe` is total. -/
theorem charsLe_total : ∀ cs ds : List Char,
    charsLe cs ds = true ∨ charsLe ds cs = true
  | [], [] => Or.inl rfl
  | [], _ :: _ => Or.inl rfl
  | _ :: _, [] => Or.inr rfl
  | c :: cs, d :: ds => by
      rcases Nat.lt_trichotomy c.toNat d.toNat with h | h | h
      · left; simp [charsLe, h]
      · rcases charsLe_total cs ds with ih | ih
        · left; simp [charsLe, h, ih]
        · right; simp [charsLe, h.symm, ih]
      · right; simp [charsLe, h]

/-- `charsLe` is transitive. -/
theorem charsLe_trans : ∀ as bs cs : List Char, charsLe as bs = true →
    charsLe bs cs = true → charsLe as cs = true
  | [], _, _, _, _ => rfl
  | _ :: _, [], _, h1, _ => by simp [charsLe] at h1
  | _ :: _, _ :: _, [], _, h2 => by simp [charsLe] at h2
  | a :: as, b :: bs, c :: cs, h1, h2 => by
      rcases Nat.lt_trichotomy a.toNat b.toNat with h | h | h
      · rcases Nat.lt_trichotomy b.toNat c.toNat with h' | h' | h'
        · simp [charsLe, Nat.lt_trans h h']
        · simp [charsLe, h' ▸ h]
        · rw [charsLe, if_neg (by omega), if_pos (by omega)] at h2
          simp at h2
      · rw [charsLe, if_neg (by omega), if_neg (by omega)] at h1
        rcases Nat.lt_trichotomy b.toNat c.toNat with h' | h' | h'
        · have hac : a.toNat < c.toNat := by omega
          simp [charsLe, hac]
        · rw [charsLe, if_neg (by omega), if_neg (by omega)] at h2
          rw [charsLe, if_neg (by omega), if_neg (by omega)]
          exact charsLe_trans as bs cs h1 h2
        · rw [charsLe, if_neg (by omega), if_pos (by omega)] at h2
          simp at h2
      · rw [charsLe, if_neg (by omega), if_pos (by omega)] at h1
        simp at h1

/-- `charsLe` is antisymmetric. -/
theorem charsLe_antisymm : ∀ cs ds : List Char, charsLe cs ds = true →
    charsLe ds cs = true → cs = ds
  | [], [], _, _ => rfl
  | [], _ :: _, _, h2 => by simp [charsLe] at h2
  | _ :: _, [], h1, _ => by simp [charsLe] at h1
  | c :: cs, d :: ds, h1, h2 => by
      rcases Nat.lt_trichotomy c.toNat d.toNat with h | h | h
      · rw [charsLe, if_neg (by omega), if_pos (by omega)] at h2
        simp at h2
      · rw [charsLe, if_neg (by omega), if_neg (by omega)] at h1
        rw [charsLe, if_neg (by omega), if_neg (by omega)] at h2
        have hcd : c = d := Char.ext (UInt32.ext h)
        rw [hcd, charsLe_antisymm cs ds h1 h2]
      · rw [charsLe, if_neg (by omega), if_pos (by omega)] at h1
        simp at h1

/-- `pyStrLe` is total. -/
theorem pyStrLe_total (a b : String) :
    pyStrLe a b = true ∨ pyStrLe b a = true :=
  charsLe_total a.data b.data

/-- `pyStrLe` is transitive. -/
theorem pyStrLe_trans {a b c : String} (h1 : pyStrLe a b = true)
    (h2 : pyStrLe b c = true) : pyStrLe a c = true :=
  charsLe_trans a.data b.data c.data h1 h2

/-- `pyStrLe` is antisymmetric. -/
theorem pyStrLe_antisymm {a b : String} (h1 : pyStrLe a b = true)
    (h2 : pyStrLe b a = true) : a = b :=
  String.ext (charsLe_antisymm a.data b.data h1 h2)

/-- The relation `sortByKey` sorts by. -/
abbrev keyLe (a b : String × ConfigTree) : Prop := pyStrLe a.1 b.1 = true

/-- Inserting into a list permutes consing. -/
theorem insertByKey_perm : ∀ (x : String × ConfigTree)
    (l : List (String × ConfigTree)), (insertByKey x l).Perm (x :: l)
  | _, [] => List.Perm.refl _
  | x, y :: ys => by
      rw [insertByKey]
      split_ifs with h
      · exact List.Perm.refl _
      · exact (List.Perm.cons y (insertByKey_perm x ys)).trans
          (List.Perm.swap x y ys)

/-- `sortByKey` permutes its input. -/
theorem sortByKey_perm : ∀ l : List (String × ConfigTree),
    (sortByKey l).Perm l
  | [] => List.Perm.refl _
  | x :: xs => (insertByKey_perm x (sortByKey xs)).trans
      (List.Perm.cons x (sortByKey_perm xs))

/-- Inserting into a key-sorted list keeps it key-sorted. -/
theorem insertByKey_pairwise : ∀ (x : String × ConfigTree)
    (l : List (String × ConfigTree)), l.Pairwise keyLe →
    (insertByKey x l).Pairwise keyLe
  | _, [], _ => List.pairwise_singleton _ _
  | x, y :: ys, h => by
      rw [insertByKey]
      obtain ⟨hy, hys⟩ := List.pairwise_cons.mp h
      split_ifs with hle
      · refine List.Pairwise.cons ?_ h
        intro b hb
        rcases List.mem_cons.mp hb with rfl | hb'
        · exact hle
        · exact pyStrLe_trans hle (hy b hb')
      · have hyx : pyStrLe y.1 x.1 = true := by
          rcases pyStrLe_total x.1 y.1 with h' | h'
          · exact absurd h' hle
          · exact h'
        refine List.Pairwise.cons ?_ (insertByKey_pairwise x ys hys)
        intro b hb
        rcases List.mem_cons.mp ((insertByKey_perm x ys).subset hb) with rfl | hb'
        · exact hyx
        · exact hy b hb'

/-- `sortByKey` produces a key-sorted list. -/
theorem sortByKey_pairwise : ∀ l : List (String × ConfigTree),
    (sortByKey l).Pairwise keyLe
  | [] => List.Pairwise.nil
  | x :: xs => insertByKey_pairwise x _ (sortByKey_pairwise xs)

/-- Two key-sorted entry lists that are permutations of each other and
whose keys are pairwise distinct are equal. -/
theorem sorted_perm_keysNodup_eq :
    ∀ l1 l2 : List (String × ConfigTree), l1.Perm l2 →
      l1.Pairwise keyLe → l2.Pairwise keyLe →
      (l1.map Prod.fst).Nodup → l1 = l2
  | [], l2, hp, _, _, _ => hp.nil_eq
  | x :: t1, [], hp, _, _, _ => by
      have := hp.length_eq
      simp at this
  | x :: t1, y :: t2, hp, hs1, hs2, hnd => by
      obtain ⟨hx1, hs1'⟩ := List.pairwise_cons.mp hs1
      obtain ⟨hy2, hs2'⟩ := List.pairwise_cons.mp hs2
      simp only [List.map_cons, List.nodup_cons] at hnd
      obtain ⟨hkx, hnd'⟩ := hnd
      have hxy : x = y := by
        rcases List.mem_cons.mp (hp.subset (List.mem_cons_self x t1)) with heq | hx2 
        · exact heq
        · rcases List.mem_cons.mp (hp.symm.subset (List.mem_cons_self y t2)) with
            heq' | hy1
          · exact heq'.symm
          · have hkeq : x.1 = y.1 :=
              pyStrLe_antisymm (hx1 y hy1) (hy2 x hx2)
            exact absurd (List.mem_map.mpr ⟨y, hy1, hkeq.symm⟩) hkx
      subst hxy
      rw [sorted_perm_keysNodup_eq t1 t2 hp.cons_inv hs1' hs2' hnd']

/-- Permutations agree on `any`. -/
theorem perm_any_eq {α : Type} {l1 l2 : List α} (h : l1.Perm l2)
    (p : α → Bool) : l1.any p = l2.any p := by
  cases h1 : l1.any p with
  | true =>
      obtain ⟨x, hm, hx⟩ := List.any_eq_true.mp h1
      exact (List.any_eq_true.mpr ⟨x, h.subset hm, hx⟩).symm
  | false =>
      cases h2 : l2.any p with
      | false => rfl
      | true =>
          obtain ⟨x, hm, hx⟩ := List.any_eq_true.mp h2
          have hc := List.any_eq_true.mpr ⟨x, h.symm.subset hm, hx⟩
          rw [h1] at hc
          simp at hc

/-- `distinctKeys` says exactly that the stringified keys are
pairwise distinct. -/
theorem distinctKeys_iff : ∀ l : List (Key × ConfigTree),
    distinctKeys l = true ↔ (l.map (fun kv => kv.1.strForm)).Nodup
  | [] => by simp [distinctKeys]
  | (k, v) :: rest => by
      rw [distinctKeys]
      simp only [List.map_cons, List.nodup_cons, Bool.and_eq_true,
        Bool.not_eq_true']
      rw [distinctKeys_iff rest]
      constructor
      · rintro ⟨h1, h2⟩
        refine ⟨?_, h2⟩
        intro hmem
        obtain ⟨kv, hm, he⟩ := List.mem_map.mp hmem
        have hany : rest.any (fun kv => kv.1.strForm == k.strForm) = true :=
          List.any_eq_true.mpr ⟨kv, hm, by simp [he]⟩
        rw [h1] at hany
        simp at hany
      · rintro ⟨h1, h2⟩
        refine ⟨?_, h2⟩
        cases hx : rest.any (fun kv => kv.1.strForm == k.strForm) with
        | false => rfl
        | true =>
            obtain ⟨kv, hm, he⟩ := List.any_eq_true.mp hx
            simp only [beq_iff_eq] at he
            exact absurd (List.mem_map.mpr ⟨kv, hm, he⟩) h1

/-- A list whose keys are pairwise distinct is untouched by
`dedupKeepLast`. -/
theorem dedupKeepLast_eq_self : ∀ l : List (String × ConfigTree),
    (l.map Prod.fst).Nodup → dedupKeepLast l = l
  | [], _ => rfl
  | (k, v) :: rest, h => by
      simp only [List.map_cons, List.nodup_cons] at h
      obtain ⟨hk, hrest⟩ := h
      have hany : rest.any (fun kv => kv.1 == k) = false := by
        cases hx : rest.any (fun kv => kv.1 == k) with
        | false => rfl
        | true =>
            obtain ⟨kv, hm, he⟩ := List.any_eq_true.mp hx
            simp only [beq_iff_eq] at he
            exact absurd (List.mem_map.mpr ⟨kv, hm, he⟩) hk
      rw [dedupKeepLast, hany]
      simp [dedupKeepLast_eq_self rest hrest]

/-- When every value canonicalizes, `sortEntries` is the entry-wise
map stringifying keys and canonicalizing values. -/
theorem sortEntries_eq_map : ∀ l : List (Key × ConfigTree),
    (∀ kv ∈ l, ∃ r, sort_dict_recursive kv.2 = .ok r) →
    sortEntries l = .ok (l.map (fun kv => (kv.1.strForm, canonD kv.2)))
  | [], _ => rfl
  | (k, v) :: rest, h => by
      obtain ⟨r, hr⟩ := h (k, v) (List.mem_cons_self _ _)
      have hrest := sortEntries_eq_map rest
        (fun kv hm => h kv (List.mem_cons_of_mem _ hm))
      rw [sortEntries, hr, hrest]
      simp [canonD, hr]

/-- If `sortEntries` succeeds, every value canonicalizes. -/
theorem sortEntries_ok_forall : ∀ (l : List (Key × ConfigTree))
    (r : List (String × ConfigTree)), sortEntries l = .ok r →
    ∀ kv ∈ l, ∃ v', sort_dict_recursive kv.2 = .ok v'
  | [], _, _, _, hm => absurd hm (List.not_mem_nil _)
  | (k, v) :: rest, r, h, kv, hm => by
      rw [sortEntries] at h
      rcases hc : sort_dict_recursive v with e | v'
      · rw [hc] at h; simp at h
      · rw [hc] at h
        rcases hr : sortEntries rest with e | t
        · rw [hr] at h; simp at h
        · rcases List.mem_cons.mp hm with heq | hm'
          · subst heq; exact ⟨v', hc⟩
          · exact sortEntries_ok_forall rest t hr kv hm'

/-- A member whose value fails to canonicalize makes `sortEntries`
fail (with the single canonicalizer error). -/
theorem sortEntries_error_of_mem : ∀ (l : List (Key × ConfigTree))
    (kv : Key × ConfigTree), kv ∈ l →
    sort_dict_recursive kv.2 = .error .invalidKey →
    sortEntries l = .error .invalidKey
  | [], _, hm, _ => absurd hm (List.not_mem_nil _)
  | (k, v) :: rest, kv, hm, herr => by
      rcases List.mem_cons.mp hm with heq | hm'
      · subst heq
        rw [sortEntries, herr]
      · rcases hc : sort_dict_recursive v with e | v'
        · rw [sortEntries, hc, CanonError.eq_invalidKey e]
        · rw [sortEntries, hc, sortEntries_error_of_mem rest kv hm' herr]

/-- If `sortEntries` fails, some value fails to canonicalize. -/
theorem sortEntries_error_mem : ∀ (l : List (Key × ConfigTree))
    (e : CanonError), sortEntries l = .error e →
    ∃ kv ∈ l, sort_dict_recursive kv.2 = .error .invalidKey
  | [], e, h => by simp [sortEntries] at h
  | (k, v) :: rest, e, h => by
      rcases hc : sort_dict_recursive v with e' | v'
      · exact ⟨(k, v), List.mem_cons_self _ _,
          by rw [hc, CanonError.eq_invalidKey e']⟩
      · rw [sortEntries, hc] at h
        rcases hr : sortEntries rest with e'' | t
        · obtain ⟨kv, hm, he⟩ := sortEntries_error_mem rest e'' hr
          exact ⟨kv, List.mem_cons_of_mem _ hm, he⟩
        · rw [hr] at h; simp at h

/-- Entry-wise `PermEq` keeps the key list. -/
theorem permEqEntries_keys : ∀ {xs zs : List (Key × ConfigTree)},
    PermEqEntries xs zs → xs.map Prod.fst = zs.map Prod.fst
  | _, _, .nil => rfl
  | _, _, .cons _ h => by simp [permEqEntries_keys h]

/-- Entry lists with the same keys agree on the float-key test. -/
theorem any_isFloat_eq_of_keys_eq {xs zs : List (Key × ConfigTree)}
    (h : xs.map Prod.fst = zs.map Prod.fst) :
    xs.any (fun kv => kv.1.isFloat) = zs.any (fun kv => kv.1.isFloat) := by
  have hmap : ∀ l : List (Key × ConfigTree),
      l.any (fun kv => kv.1.isFloat) = (l.map Prod.fst).any Key.isFloat := by
    intro l
    induction l with
    | nil => rfl
    | cons a t ih => simp [List.any_cons, ih]
  rw [hmap, hmap, h]

mutual

/-- Trees that differ only in map-entry order — provided every map's
keys stringify injectively — canonicalize identically. -/
theorem permEq_canon : ∀ {t1 t2 : ConfigTree}, PermEq t1 t2 →
    t1.canonKeysOk = true → sort_dict_recursive t1 = sort_dict_recursive t2
  | _, _, .str _, _ => rfl
  | _, _, .int _, _ => rfl
  | _, _, .bool _, _ => rfl
  | _, _, .float _, _ => rfl
  | _, _, .null, _ => rfl
  | _, _, @PermEq.list xs ys hl, hok => by
      have h := permEqList_sortItems hl
        (by simpa [ConfigTree.canonKeysOk] using hok)
      simp only [sort_dict_recursive, h]
  | _, _, @PermEq.map xs zs ys hentries hperm, hok => by
      obtain ⟨hdk, hek⟩ : distinctKeys xs = true ∧
          ConfigTree.entriesKeysOk xs = true := by
        simpa [ConfigTree.canonKeysOk, Bool.and_eq_true] using hok
      have hkeys : xs.map Prod.fst = zs.map Prod.fst := permEqEntries_keys hentries
      have hfl : xs.any (fun kv => kv.1.isFloat) =
          ys.any (fun kv => kv.1.isFloat) := by
        rw [any_isFloat_eq_of_keys_eq hkeys, perm_any_eq hperm]
      cases hfk : xs.any (fun kv => kv.1.isFloat) with
      | true =>
          have hfk' : ys.any (fun kv => kv.1.isFloat) = true := by
            rw [← hfl]; exact hfk
          simp [sort_dict_recursive, hfk, hfk']
      | false =>
          have hfk' : ys.any (fun kv => kv.1.isFloat) = false := by
            rw [← hfl]; exact hfk
          have hxz : sortEntries xs = sortEntries zs :=
            permEqEntries_sortEntries hentries hek
          rcases hsz : sortEntries zs with e | rs
          · obtain ⟨kv, hm, he⟩ := sortEntries_error_mem zs e hsz
            have hys : sortEntries ys = .error .invalidKey :=
              sortEntries_error_of_mem ys kv (hperm.subset hm) he
            have hxs : sortEntries xs = .error .invalidKey := by
              rw [hxz, hsz, CanonError.eq_invalidKey e]
            simp [sort_dict_recursive, hfk, hfk', hxs, hys]
          · have hallz : ∀ kv ∈ zs, ∃ r, sort_dict_recursive kv.2 = .ok r :=
              sortEntries_ok_forall zs rs hsz
            have hally : ∀ kv ∈ ys, ∃ r, sort_dict_recursive kv.2 = .ok r :=
              fun kv hm => hallz kv (hperm.mem_iff.mpr hm)
            have hmapz := sortEntries_eq_map zs hallz
            have hmapy := sortEntries_eq_map ys hally
            have hxs : sortEntries xs =
                .ok (zs.map (fun kv => (kv.1.strForm, canonD kv.2))) := by
              rw [hxz, hmapz]
            have hnodup : ((zs.map (fun kv => (kv.1.strForm, canonD kv.2))).map
                Prod.fst).Nodup := by
              have h1 : (zs.map (fun kv => (kv.1.strForm, canonD kv.2))).map
                  Prod.fst = zs.map (fun kv => kv.1.strForm) := by
                simp [List.map_map, Function.comp]
              have h2 : zs.map (fun kv => kv.1.strForm) =
                  xs.map (fun kv => kv.1.strForm) := by
                have h3 := congrArg (fun l => l.map Key.strForm) hkeys
                simpa [List.map_map, Function.comp] using h3.symm
              rw [h1, h2]
              exact (distinctKeys_iff xs).mp hdk
            have hpermg : (zs.map (fun kv => (kv.1.strForm, canonD kv.2))).Perm
                (ys.map (fun kv => (kv.1.strForm, canonD kv.2))) := hperm.map _
            have hnodup' : ((ys.map (fun kv => (kv.1.strForm, canonD kv.2))).map
                Prod.fst).Nodup := (hpermg.map Prod.fst).nodup_iff.mp hnodup
            have hsorteq :
                sortByKey (dedupKeepLast
                  (zs.map (fun kv => (kv.1.strForm, canonD kv.2)))) =
                sortByKey (dedupKeepLast
                  (ys.map (fun kv => (kv.1.strForm, canonD kv.2)))) := by
              rw [dedupKeepLast_eq_self _ hnodup, dedupKeepLast_eq_self _ hnodup']
              apply sorted_perm_keysNodup_eq
              · exact (sortByKey_perm _).trans
                  (hpermg.trans (sortByKey_perm _).symm)
              · exact sortByKey_pairwise _
              · exact sortByKey_pairwise _
              · exact ((sortByKey_perm _).map Prod.fst).nodup_iff.mpr hnodup
            simp [sort_dict_recursive, hfk, hfk', hxs, hmapy, hsorteq]
termination_by structural h => h

/-- Entry lists related pointwise by `PermEq` (same keys, values
related) canonicalize to the same `sortEntries` result. -/
theorem permEqEntries_sortEntries : ∀ {xs zs : List (Key × ConfigTree)},
    PermEqEntries xs zs → ConfigTree.entriesKeysOk xs = true →
    sortEntries xs = sortEntries zs
  | _, _, .nil, _ => rfl
  | _, _, @PermEqEntries.cons k v w xs ys hvw hrest, hok => by
      obtain ⟨h1, h2⟩ : v.canonKeysOk = true ∧
          ConfigTree.entriesKeysOk xs = true := by
        simpa [ConfigTree.entriesKeysOk, Bool.and_eq_true] using hok
      rw [sortEntries, sortEntries, permEq_canon hvw h1,
        permEqEntries_sortEntries hrest h2]
termination_by structural h => h

/-- Item lists related pointwise by `PermEq` canonicalize to the same
`sortItems` result. -/
theorem permEqList_sortItems : ∀ {xs ys : List ConfigTree},
    PermEqList xs ys → ConfigTree.itemsKeysOk xs = true →
    sortItems xs = sortItems ys
  | _, _, .nil, _ => rfl
  | _, _, @PermEqList.cons x y xs ys hxy hrest, hok => by
      obtain ⟨h1, h2⟩ : x.canonKeysOk = true ∧
          ConfigTree.itemsKeysOk xs = true := by
        simpa [ConfigTree.itemsKeysOk, Bool.and_eq_true] using hok
      rw [sortItems, sortItems, permEq_canon hxy h1,
        permEqList_sortItems hrest h2]
termination_by structural h => h

end

/-- **C3 counterexample**: `{a: {1: "x", "1": "y"}}` and the same tree
with the inner entries transposed differ only in map-entry order, yet
hash differently: `str()` collapses the integer key `1` and the string
key `"1"`, and Python-dict overwrite keeps the *later* entry's value,
which depends on the order. -/
theorem claim_C3_counterexample :
    PermEq tKeyClash tKeyClashSwapped ∧
    hash_config_section tKeyClash ≠ hash_config_section tKeyClashSwapped := by
  constructor
  · have hinner : PermEq
        (ConfigTree.map [(Key.int 1, ConfigTree.str "x"),
          (Key.str "1", ConfigTree.str "y")])
        (ConfigTree.map [(Key.str "1", ConfigTree.str "y"),
          (Key.int 1, ConfigTree.str "x")]) :=
      PermEq.map
        (PermEqEntries.cons (PermEq.str "x")
          (PermEqEntries.cons (PermEq.str "y") PermEqEntries.nil))
        (List.Perm.swap (Key.str "1", ConfigTree.str "y")
          (Key.int 1, ConfigTree.str "x") [])
    exact PermEq.map (PermEqEntries.cons hinner PermEqEntries.nil)
      (List.Perm.refl _)
  · decide

/-- **C3 (amended)**: the canonical hash is invariant under permutation
of map entries at any nesting depth *provided every map's keys have
pairwise-distinct string forms* (always the case when all keys are
strings).  Without that proviso the claim fails — `str()` conversion
can collapse distinct keys, and which entry survives depends on the
order (see the counterexample). -/
theorem claim_C3_amended (t1 t2 : ConfigTree) (h : PermEq t1 t2)
    (hok : t1.canonKeysOk = true) :
    hash_config_section t1 = hash_config_section t2 :=
  permEq_canon h hok

/-- Witness for the amended C3: `{a: {b: 1, c: 2}}` hashes like
`{a: {c: 2, b: 1}}`. -/
theorem claim_C3_amended_witness :
    hash_config_section tNested = hash_config_section tNestedSwapped :=
  claim_C3_amended tNested tNestedSwapped
    (by
      have hinner : PermEq
          (ConfigTree.map [(Key.str "b", ConfigTree.int 1),
            (Key.str "c", ConfigTree.int 2)])
          (ConfigTree.map [(Key.str "c", ConfigTree.int 2),
            (Key.str "b", ConfigTree.int 1)]) :=
        PermEq.map
          (PermEqEntries.cons (PermEq.int 1)
            (PermEqEntries.cons (PermEq.int 2) PermEqEntries.nil))
          (List.Perm.swap (Key.str "c", ConfigTree.int 2)
            (Key.str "b", ConfigTree.int 1) [])
      exact PermEq.map (PermEqEntries.cons hinner PermEqEntries.nil)
        (List.Perm.refl _))
    (by decide)

/-! ## Idempotence of the canonicalizer

The source applies `sort_dict_recursive` a second time to the values of
the already-canonical sorted dict; these lemmas show one application is
a fixed point, so the model's single pass is faithful. -/

/-- `round(·, 10)` is idempotent (its output times `10^10` is an
integer, which rounds to itself). -/
theorem round10_idem (q : ℚ) : round10 (round10 q) = round10 q := by
  have hq' : round10 q =
      Rat.divInt (pyRoundRatio (q.num * 10000000000) q.den) 10000000000 := rfl
  generalize hm : pyRoundRatio (q.num * 10000000000) q.den = m
  rw [hm] at hq'
  have hpos : 0 < (round10 q).den := (round10 q).pos
  have hdenne : (((round10 q).den : ℤ) : ℚ) ≠ 0 := by
    have : ((round10 q).den : ℤ) ≠ 0 := by exact_mod_cast Nat.pos_iff_ne_zero.mp hpos
    exact_mod_cast this
  have h1 : (((round10 q).num : ℤ) : ℚ) / (((round10 q).den : ℤ) : ℚ) =
      ((m : ℤ) : ℚ) / ((10000000000 : ℤ) : ℚ) := by
    rw [show (((round10 q).num : ℤ) : ℚ) / (((round10 q).den : ℤ) : ℚ) =
        ((round10 q).num : ℚ) / ((round10 q).den : ℚ) by push_cast; ring]
    rw [Rat.num_div_den, hq', Rat.divInt_eq_div]
  have h2 : (((round10 q).num : ℤ) : ℚ) * 10000000000 =
      (((round10 q).den : ℤ) : ℚ) * ((m : ℤ) : ℚ) := by
    field_simp at h1
    push_cast at h1 ⊢
    linear_combination h1
  have h3 : (round10 q).num * 10000000000 = ((round10 q).den : ℤ) * m := by
    exact_mod_cast h2
  have hden0 : ((round10 q).den : ℤ) ≠ 0 := by
    exact_mod_cast Nat.pos_iff_ne_zero.mp hpos
  have hfd : ((round10 q).num * 10000000000).fdiv ((round10 q).den : ℤ) = m := by
    rw [h3]
    exact Int.mul_fdiv_cancel_left m hden0
  have hfm : ((round10 q).num * 10000000000).fmod ((round10 q).den : ℤ) = 0 := by
    have hid := Int.fdiv_add_fmod ((round10 q).num * 10000000000)
      ((round10 q).den : ℤ)
    rw [hfd] at hid
    linarith [hid, h3]
  have hpr : pyRoundRatio ((round10 q).num * 10000000000) (round10 q).den = m := by
    simp only [pyRoundRatio, hfm, hfd]
    rw [if_pos]
    simp only [Nat.cast_pos, mul_zero]
    exact_mod_cast hpos
  rw [round10, hpr, hq']

/-- Every survivor of `dedupKeepLast` comes from the original list. -/
theorem dedupKeepLast_subset : ∀ (l : List (String × ConfigTree))
    (kv : String × ConfigTree), kv ∈ dedupKeepLast l → kv ∈ l
  | [], _, hm => absurd hm (List.not_mem_nil _)
  | (k, v) :: rest, kv, hm => by
      rw [dedupKeepLast] at hm
      split_ifs at hm with h
      · exact List.mem_cons_of_mem _ (dedupKeepLast_subset rest kv hm)
      · rcases List.mem_cons.mp hm with heq | hm'
        · exact heq ▸ List.mem_cons_self _ _
        · exact List.mem_cons_of_mem _ (dedupKeepLast_subset rest kv hm')

/-- `dedupKeepLast` leaves pairwise-distinct keys. -/
theorem dedupKeepLast_keys_nodup : ∀ l : List (String × ConfigTree),
    ((dedupKeepLast l).map Prod.fst).Nodup
  | [] => List.nodup_nil
  | (k, v) :: rest => by
      rw [dedupKeepLast]
      split_ifs with h
      · exact dedupKeepLast_keys_nodup rest
      · simp only [List.map_cons, List.nodup_cons]
        refine ⟨?_, dedupKeepLast_keys_nodup rest⟩
        intro hmem
        obtain ⟨kv, hm, he⟩ := List.mem_map.mp hmem
        have hany : rest.any (fun kv => kv.1 == k) = true :=
          List.any_eq_true.mpr ⟨kv, dedupKeepLast_subset rest kv hm, by simp [he]⟩
        rw [hany] at h
        exact h rfl

/-- Wrapping entry keys as string keys introduces no float keys. -/
theorem wrap_any_isFloat : ∀ l : List (String × ConfigTree),
    ((l.map (fun kv => (Key.str kv.1, kv.2))).any
      (fun kv => kv.1.isFloat)) = false
  | [] => rfl
  | _ :: rest => by
      rw [List.map_cons, List.any_cons, wrap_any_isFloat rest]
      rfl

/-- Unwrapping after wrapping recovers an entry list whose values are
canonical fixed points. -/
theorem unwrapWrap : ∀ l : List (String × ConfigTree),
    (∀ kv ∈ l, sort_dict_recursive kv.2 = .ok kv.2) →
    (l.map (fun kv => (Key.str kv.1, kv.2))).map
      (fun kv => (kv.1.strForm, canonD kv.2)) = l
  | [], _ => rfl
  | (s, v) :: rest, h => by
      have hv := h (s, v) (List.mem_cons_self _ _)
      have hrest := unwrapWrap rest (fun kv hm => h kv (List.mem_cons_of_mem _ hm))
      rw [List.map_cons, List.map_cons, hrest]
      simp [Key.strForm, canonD, hv]

/-- `sortByKey` fixes an already key-sorted list. -/
theorem sortByKey_eq_self_of_pairwise : ∀ l : List (String × ConfigTree),
    l.Pairwise keyLe → sortByKey l = l
  | [], _ => rfl
  | x :: xs, h => by
      obtain ⟨hx, hxs⟩ := List.pairwise_cons.mp h
      rw [sortByKey, sortByKey_eq_self_of_pairwise xs hxs]
      cases xs with
      | nil => rfl
      | cons y ys =>
          rw [insertByKey, if_pos (hx y (List.mem_cons_self _ _))]

mutual

/-- Canonicalization is idempotent: its successful output is a fixed
point (the second pass in the source is the identity). -/
theorem sort_dict_recursive_idem : ∀ (t t' : ConfigTree),
    sort_dict_recursive t = .ok t' → sort_dict_recursive t' = .ok t'
  | .str s, t', h => by
      simp only [sort_dict_recursive, Except.ok.injEq] at h
      subst h; rfl
  | .int n, t', h => by
      simp only [sort_dict_recursive, Except.ok.injEq] at h
      subst h; rfl
  | .bool b, t', h => by
      simp only [sort_dict_recursive, Except.ok.injEq] at h
      subst h; rfl
  | .null, t', h => by
      simp only [sort_dict_recursive, Except.ok.injEq] at h
      subst h; rfl
  | .float q, t', h => by
      simp only [sort_dict_recursive, Except.ok.injEq] at h
      subst h
      simp [sort_dict_recursive, round10_idem]
  | .list items, t', h => by
      rw [sort_dict_recursive] at h
      rcases hs : sortItems items with e | items'
      · rw [hs] at h; simp at h
      · rw [hs] at h
        simp only [Except.ok.injEq] at h
        subst h
        have hi := sortItems_idem items items' hs
        simp [sort_dict_recursive, hi]
  | .map entries, t', h => by
      cases hfk : entries.any (fun kv => kv.1.isFloat) with
      | true => simp [sort_dict_recursive, hfk] at h
      | false =>
          rcases hse : sortEntries entries with e | news
          · simp [sort_dict_recursive, hfk, hse] at h
          · have ht' : t' = .map ((sortByKey (dedupKeepLast news)).map
                (fun kv => (Key.str kv.1, kv.2))) := by
              have := h
              simp [sort_dict_recursive, hfk, hse] at this
              exact this.symm
            subst ht'
            have hvals : ∀ kv ∈ sortByKey (dedupKeepLast news),
                sort_dict_recursive kv.2 = .ok kv.2 := by
              intro kv hm
              have hm1 : kv ∈ dedupKeepLast news :=
                (sortByKey_perm _).subset hm
              have hm2 : kv ∈ news := dedupKeepLast_subset news kv hm1
              exact sortEntries_idem entries news hse kv hm2
            have hnf := wrap_any_isFloat (sortByKey (dedupKeepLast news))
            have hse2 : sortEntries ((sortByKey (dedupKeepLast news)).map
                (fun kv => (Key.str kv.1, kv.2))) =
                .ok (sortByKey (dedupKeepLast news)) := by
              rw [sortEntries_eq_map _ (fun kv hm => by
                obtain ⟨kv0, hm0, he⟩ := List.mem_map.mp hm
                subst he
                exact ⟨kv0.2, hvals kv0 hm0⟩)]
              rw [unwrapWrap _ hvals]
            have hnd : ((sortByKey (dedupKeepLast news)).map Prod.fst).Nodup :=
              ((sortByKey_perm (dedupKeepLast news)).map Prod.fst).nodup_iff.mpr
                (dedupKeepLast_keys_nodup news)
            have hded := dedupKeepLast_eq_self _ hnd
            have hsorted := sortByKey_eq_self_of_pairwise
              (sortByKey (dedupKeepLast news))
              (sortByKey_pairwise (dedupKeepLast news))
            simp [sort_dict_recursive, hnf, hse2, hded, hsorted]
termination_by structural t => t

/-- The values produced by a successful `sortEntries` pass are
canonical fixed points. -/
theorem sortEntries_idem : ∀ (l : List (Key × ConfigTree))
    (news : List (String × ConfigTree)), sortEntries l = .ok news →
    ∀ kv ∈ news, sort_dict_recursive kv.2 = .ok kv.2
  | [], news, h, kv, hm => by
      simp only [sortEntries, Except.ok.injEq] at h
      subst h
      exact absurd hm (List.not_mem_nil _)
  | (k, v) :: rest, news, h, kv, hm => by
      rw [sortEntries] at h
      rcases hc : sort_dict_recursive v with e | v'
      · rw [hc] at h; simp at h
      · rw [hc] at h
        rcases hr : sortEntries rest with e | t
        · rw [hr] at h; simp at h
        · rw [hr] at h
          simp only [Except.ok.injEq] at h
          subst h
          rcases List.mem_cons.mp hm with heq | hm'
          · subst heq
            exact sort_dict_recursive_idem v v' hc
          · exact sortEntries_idem rest t hr kv hm'
termination_by structural l => l

/-- A successful `sortItems` output is a fixed point. -/
theorem sortItems_idem : ∀ (l l' : List ConfigTree),
    sortItems l = .ok l' → sortItems l' = .ok l'
  | [], l', h => by
      simp only [sortItems, Except.ok.injEq] at h
      subst h; rfl
  | t :: rest, l', h => by
      rw [sortItems] at h
      rcases hc : sort_dict_recursive t with e | t1
      · rw [hc] at h; simp at h
      · rw [hc] at h
        rcases hr : sortItems rest with e | rest1
        · rw [hr] at h; simp at h
        · rw [hr] at h
          simp only [Except.ok.injEq] at h
          subst h
          rw [sortItems, sort_dict_recursive_idem t t1 hc,
            sortItems_idem rest rest1 hr]
termination_by structural l => l

end
